import Mathlib

/-!
Verification development for the Data-Driven-Stock-Analysis pipeline.
The Python sources (pandas-based scripts) are embedded shallowly:
DataFrames become lists of rows, missing values (NaN/NaT) become `Option`,
floats become `ℚ` (with an explicit `FVal` wrapper where IEEE division by
zero matters), and pandas grouped operations become explicit keyed folds.
-/

namespace StockAnalysis

/-- Stable insertion sort with a boolean `le`; models pandas
`sort_values(..., kind="stable")`: an element is inserted before the first
element it compares `le` to, so elements with equal keys keep input order. -/
def insertS {α : Type} (le : α → α → Bool) (a : α) : List α → List α
  | [] => [a]
  | b :: l => if le a b then a :: b :: l else b :: insertS le a l

/-- Stable sort built from `insertS`. -/
def sortS {α : Type} (le : α → α → Bool) : List α → List α
  | [] => []
  | a :: l => insertS le a (sortS le l)

/-- `drop_duplicates` with pandas semantics (`keep="first"`): keep the first
occurrence of each value, drop later exact duplicates.  `seen` is the
accumulator of already-kept values. -/
def dedupFirstAux {α : Type} [DecidableEq α] : List α → List α → List α
  | _, [] => []
  | seen, a :: l =>
      if a ∈ seen then dedupFirstAux seen l else a :: dedupFirstAux (a :: seen) l

/-- `DataFrame.drop_duplicates()`: full-row equality, keep first occurrence. -/
def drop_duplicates {α : Type} [DecidableEq α] (l : List α) : List α :=
  dedupFirstAux [] l

/-! ### Keyed grouped fold

pandas' grouped transformations (`groupby(...).ffill()`,
`groupby(...).pct_change()`, `groupby(...).cumprod()`) fill each output row
from per-group state carried over the rows of that row's own group, in
dataframe order.  `keyedGo` is that computation: an association list from
group key to group state, threaded over the rows; each output row depends
only on its own row and the state stored under its own key. -/

/-- First value stored under key `k`, if any. -/
def lookA {κ σ : Type} [DecidableEq κ] : List (κ × σ) → κ → Option σ
  | [], _ => none
  | (k', v) :: st, k => if k' = k then some v else lookA st k

/-- Store `v` under key `k` (overwrite, or append a new entry). -/
def updA {κ σ : Type} [DecidableEq κ] : List (κ × σ) → κ → σ → List (κ × σ)
  | [], k, v => [(k, v)]
  | (k', w) :: st, k, v => if k' = k then (k, v) :: st else (k', w) :: updA st k v

/-- One pass of a grouped transformation: each row `a` is turned into
`f s a` where `s` is the state stored under `key a` (none if the row is the
first of its group), and the state under `key a` becomes `u s a`. -/
def keyedGo {κ σ α β : Type} [DecidableEq κ]
    (f : Option σ → α → β) (u : Option σ → α → σ) (key : α → κ) :
    List (κ × σ) → List α → List β
  | _, [] => []
  | st, a :: l =>
      f (lookA st (key a)) a :: keyedGo f u key (updA st (key a) (u (lookA st (key a)) a)) l

/-- The state stored under `k` after the rows `pre` have been processed:
fold `u` over exactly the rows of `pre` whose key is `k`. -/
def stSpec {κ σ α : Type} [DecidableEq κ]
    (u : Option σ → α → σ) (key : α → κ) (pre : List α) (k : κ) : Option σ :=
  pre.foldl (fun acc a => if key a = k then some (u acc a) else acc) none

/-! ### Data model

A calendar date is modelled as a `(month, day)` pair ordered
lexicographically; `month` stands for the value of `to_period("M")`
(year and month together), so dates within one calendar month share their
first component.  A master-table row carries the seven required columns;
every column except the ticker/date keys is a coerced numeric
(`pd.to_numeric(errors="coerce")`), so each cell is an `Option ℚ`
(`none` = NaN/NaT). -/

/-- `(month, day)`: chronological order is lexicographic. -/
def Date : Type := Int × Int

instance : DecidableEq Date := instDecidableEqProd

/-- One row of the master table (columns of `master_dataset.csv`). -/
structure Row where
  ticker : Option String
  date : Option Date
  open_ : Option ℚ
  high : Option ℚ
  low : Option ℚ
  close : Option ℚ
  volume : Option ℚ
deriving DecidableEq

/-- One row of the cleaned table: a master row plus the derived
`daily_return` column. -/
structure CRow extends Row where
  daily_return : Option ℚ
deriving DecidableEq

/-- Order on the ticker column used by `sort_values`: string order, with a
missing ticker sorting last (`na_position="last"`). -/
def tickerLe : Option String → Option String → Bool
  | _, none => true
  | none, some _ => false
  | some a, some b => decide (a ≤ b)

/-- Order on the date column used by `sort_values`: chronological
(lexicographic on `(month, day)`), with `NaT` sorting last. -/
def dateOLe : Option Date → Option Date → Bool
  | _, none => true
  | none, some _ => false
  | some a, some b => decide (a.1 < b.1) || (decide (a.1 = b.1) && decide (a.2 ≤ b.2))

/-- Lexicographic `(Ticker, date)` sort key of `sort_values(["Ticker", "date"])`. -/
def keyLe (a b : Option String × Option Date) : Bool :=
  if a.1 = b.1 then dateOLe a.2 b.2 else tickerLe a.1 b.1

def rowLe (r s : Row) : Bool := keyLe (r.ticker, r.date) (s.ticker, s.date)

def crowLe (r s : CRow) : Bool := keyLe (r.ticker, r.date) (s.ticker, s.date)

namespace Preparation

/-!  Embedding of `src/preparation.py` (`main`): after loading the master
table, the script drops rows with no `Ticker` or no `close`
(`df.dropna(subset=["Ticker", "close"])`), stable-sorts by `(Ticker, date)`,
forward-fills within each ticker (`df.groupby(level=0).ffill()`), and
computes `daily_return` per ticker
(`df.groupby(level=0)["close"].pct_change()`). -/

/-- `df.dropna(subset=["Ticker", "close"])`. -/
def dropnaTC (l : List Row) : List Row :=
  l.filter (fun r => r.ticker.isSome && r.close.isSome)

/-- `df.sort_values(["Ticker", "date"], kind="stable")`. -/
def sortMaster (l : List Row) : List Row := sortS rowLe l

/-- A NaN cell takes the previous value (`Series.ffill` step). -/
def fillVal (cur prev : Option ℚ) : Option ℚ :=
  match cur with
  | some x => some x
  | none => prev

/-- Row with every value column missing: the fill state before a ticker's
first row. -/
def noneRow : Row := ⟨none, none, none, none, none, none, none⟩

/-- Fill one row's value columns from the previous (already filled) row of
the same ticker. -/
def fillRow (prev r : Row) : Row :=
  { r with
    open_ := fillVal r.open_ prev.open_
    high := fillVal r.high prev.high
    low := fillVal r.low prev.low
    close := fillVal r.close prev.close
    volume := fillVal r.volume prev.volume }

/-- `df.groupby(level=0).ffill()`: each row is filled from the last filled
row of its own ticker; the state per ticker is that filled row. -/
def ffillByTicker (l : List Row) : List Row :=
  keyedGo (fun prev r => fillRow (prev.getD noneRow) r)
    (fun prev r => fillRow (prev.getD noneRow) r) Row.ticker [] l

/-- One `pct_change` cell: fractional change of `close` against the last
non-missing `close` of the same ticker (`none` when there is none). -/
def pctCell (prev : Option (Option ℚ)) (r : Row) : CRow :=
  { r with
    daily_return :=
      match prev.getD none, r.close with
      | some c, some x => some (x / c - 1)
      | _, _ => none }

/-- `pct_change` state: the last non-missing `close` seen in this ticker. -/
def pctState (prev : Option (Option ℚ)) (r : Row) : Option ℚ :=
  match r.close with
  | some x => some x
  | none => prev.getD none

/-- `df.groupby(level=0)["close"].pct_change()`, appended as the
`daily_return` column. -/
def pctChangeByTicker (l : List Row) : List CRow :=
  keyedGo pctCell pctState Row.ticker [] l

/-- The whole Cleaner: `preparation.py`'s `main`, from master table to
cleaned table. -/
def prepare (master : List Row) : List CRow :=
  pctChangeByTicker (ffillByTicker (sortMaster (dropnaTC master)))

/-- The most recent non-missing value of column `g` among the rows of `pre`
that belong to ticker `t` (`none` when that ticker has no prior non-missing
value in `pre`). -/
def lastField (g : Row → Option ℚ) (t : Option String) (pre : List Row) : Option ℚ :=
  pre.foldl
    (fun acc r => if r.ticker = t then (match g r with | some x => some x | none => acc) else acc)
    none

/-- The `(Ticker, date)`-sorted table the Cleaner's grouped steps run on. -/
def cleanedSorted (master : List Row) : List Row := sortMaster (dropnaTC master)

/-- The sorted table after the grouped forward fill. -/
def ffilled (master : List Row) : List Row := ffillByTicker (cleanedSorted master)

end Preparation

open Preparation in
/-- Concrete two-row master table used by witnesses: ticker "A" with an
open price only on the first day. -/
def wRow1 : Row := ⟨some "A", some ((1 : Int), (1 : Int)), some 1, none, none, some 5, none⟩

open Preparation in
def wRow2 : Row := ⟨some "A", some ((1 : Int), (2 : Int)), none, none, none, some 6, none⟩

open Preparation in
def wMaster : List Row := [wRow2, wRow1]

open Preparation in
/-- The cleaned row the pipeline produces at position 1 of `wMaster`. -/
def wClean2 : CRow :=
  ⟨⟨some "A", some ((1 : Int), (2 : Int)), some 1, none, none, some 6, none⟩, some (6 / 5 - 1)⟩

namespace CombineCsvs

/-!  Embedding of `src/combine_csvs_final.py` (`main`): concatenate the
per-ticker frames, remove exact-duplicate rows, stable-sort by
`(Ticker, date)`. -/

/-- `pd.concat(frames)`, `drop_duplicates()`, `sort_values(["Ticker", "date"],
kind="stable")`. -/
def masterTable (frames : List (List Row)) : List Row :=
  sortS rowLe (drop_duplicates frames.flatten)

end CombineCsvs

open Preparation in
/-- Two rows sharing ticker and date but with different closes: both survive
`drop_duplicates` (they are not identical in all fields) and both reach the
Cleaned Table. -/
def dupRow1 : Row := ⟨some "A", some ((1 : Int), (1 : Int)), none, none, none, some 5, none⟩

open Preparation in
def dupRow2 : Row := ⟨some "A", some ((1 : Int), (1 : Int)), none, none, none, some 6, none⟩

open Preparation in
/-- The two rows of the cleaned table built from `dupRow1`/`dupRow2`. -/
def dupClean0 : CRow :=
  ⟨⟨some "A", some ((1 : Int), (1 : Int)), none, none, none, some 5, none⟩, none⟩

open Preparation in
def dupClean1 : CRow :=
  ⟨⟨some "A", some ((1 : Int), (1 : Int)), none, none, none, some 6, none⟩, some (6 / 5 - 1)⟩

open Preparation in
/-! ### Float semantics for the yearly-return quotient

`(last_close - first_close) / first_close` is computed by pandas in IEEE
floats with no guard on the divisor.  Finite values are exact rationals
here; division by zero produces a signed infinity (or NaN for `0/0`),
which is what `FVal` records. -/
inductive FVal where
  | fin (q : ℚ)
  | inf
  | ninf
  | nan
deriving DecidableEq

open Preparation in
/-- IEEE division of two finite values. -/
def fdivF (a b : ℚ) : FVal :=
  if b = 0 then (if 0 < a then FVal.inf else if a < 0 then FVal.ninf else FVal.nan)
  else FVal.fin (a / b)

open Preparation in
def FVal.isFinite : FVal → Bool
  | FVal.fin _ => true
  | _ => false

open Preparation in
/-- `v > 0` on floats (NaN compares false, `inf > 0` true). -/
def fposF : FVal → Bool
  | FVal.fin q => decide (0 < q)
  | FVal.inf => true
  | _ => false

open Preparation in
/-- `v < 0` on floats. -/
def fnegF : FVal → Bool
  | FVal.fin q => decide (q < 0)
  | FVal.ninf => true
  | _ => false

open Preparation in
/-! ### Shared groupby helpers of the Derivation Engine scripts

`market_summary.py`, `returns_analysis.py` and `sector_performance.py` all
re-sort the cleaned table by `(Ticker, date)` and take
`groupby("Ticker")["close"].first()/.last()`.  `groupby` sorts its keys,
drops NaN keys, and `first`/`last` take the first/last *non-missing* value
of the group. -/
def strLe (a b : String) : Bool := decide (a ≤ b)

open Preparation in
/-- Arithmetic mean of a list of values. -/
def meanQ (xs : List ℚ) : ℚ := xs.sum / (xs.length : ℚ)

open Preparation in
/-- `groupby("Ticker")` group keys: the distinct non-missing tickers, in
sorted order. -/
def groupTickers (cl : List CRow) : List String :=
  sortS strLe (drop_duplicates (cl.filterMap (fun r => r.ticker)))

open Preparation in
/-- The rows of one ticker, in `(Ticker, date)`-sorted order. -/
def tickerRows (cl : List CRow) (t : String) : List CRow :=
  (sortS crowLe cl).filter (fun r => decide (r.ticker = some t))

open Preparation in
/-- `grouped["close"].first()`: first non-missing close of the group. -/
def firstCloseQ (cl : List CRow) (t : String) : Option ℚ :=
  ((tickerRows cl t).filterMap (fun r => r.close)).head?

open Preparation in
/-- `grouped["close"].last()`: last non-missing close of the group. -/
def lastCloseQ (cl : List CRow) (t : String) : Option ℚ :=
  ((tickerRows cl t).filterMap (fun r => r.close)).getLast?

namespace MarketSummary

/-!  Embedding of `src/market_summary.py` (`main`): yearly return per
ticker, then `green = (yearly_return > 0).sum()` and
`red = (yearly_return < 0).sum()` — note both comparisons are *strict*. -/

/-- `(last_close - first_close) / first_close` in float semantics; an
all-missing close group yields NaN. -/
def yearly_return (cl : List CRow) (t : String) : FVal :=
  match firstCloseQ cl t, lastCloseQ cl t with
  | some f, some lc => fdivF (lc - f) f
  | _, _ => FVal.nan

/-- `(result["yearly_return"] > 0).sum()`. -/
def green_count (cl : List CRow) : ℕ :=
  ((groupTickers cl).map (yearly_return cl)).countP fposF

/-- `(result["yearly_return"] < 0).sum()`. -/
def red_count (cl : List CRow) : ℕ :=
  ((groupTickers cl).map (yearly_return cl)).countP fnegF

end MarketSummary

namespace ReturnsAnalysis

/-!  Embedding of `src/returns_analysis.py` (`main`): the same yearly-return
computation, feeding the top-10 lists. -/
def yearly_return (cl : List CRow) (t : String) : FVal :=
  match firstCloseQ cl t, lastCloseQ cl t with
  | some f, some lc => fdivF (lc - f) f
  | _, _ => FVal.nan

end ReturnsAnalysis

namespace SectorPerformance

/-!  Embedding of the yearly-return computation of
`src/sector_performance.py` (`main`), identical to the other two scripts. -/
def yearly_return (cl : List CRow) (t : String) : FVal :=
  match firstCloseQ cl t, lastCloseQ cl t with
  | some f, some lc => fdivF (lc - f) f
  | _, _ => FVal.nan

end SectorPerformance

open Preparation in
/-- A ticker whose first close is zero. -/
def zMaster : List Row :=
  [⟨some "Z", some ((1 : Int), (1 : Int)), none, none, none, some 0, none⟩,
   ⟨some "Z", some ((1 : Int), (2 : Int)), none, none, none, some 5, none⟩]

open Preparation in
/-- The spec's three-ticker scenario: closes `[100,110,121]`, `[50,45,40.5]`,
`[10,10,10]` on three consecutive days. -/
def scnRow (t : String) (d : Int) (c : ℚ) : Row :=
  ⟨some t, some ((1 : Int), d), none, none, none, some c, none⟩

open Preparation in
def scnMaster : List Row :=
  [scnRow "A" 1 100, scnRow "A" 2 110, scnRow "A" 3 121,
   scnRow "B" 1 50, scnRow "B" 2 45, scnRow "B" 3 40.5,
   scnRow "C" 1 10, scnRow "C" 2 10, scnRow "C" 3 10]

namespace VolatilityAnalysis

/-!  Embedding of `src/volatility_analysis.py` (`main`): drop the rows with
no `daily_return`, group the remainder by ticker, and take the sample
standard deviation (`Series.std`, `ddof=1`) of each group.  The square
root of a rational is irrational, so `sampleVar` models the *square* of
the reported volatility: `std = sqrt (sampleVar)`; `std` is NaN exactly
when `sampleVar` is `none`, and `std = 0` exactly when `sampleVar = some 0`. -/

/-- `df.dropna(subset=["daily_return"])`. -/
def dfv (cl : List CRow) : List CRow := cl.filter (fun r => r.daily_return.isSome)

/-- `groupby("Ticker")` keys of the surviving rows. -/
def volKeys (cl : List CRow) : List String :=
  sortS strLe (drop_duplicates ((dfv cl).filterMap (fun r => r.ticker)))

/-- One ticker's non-missing daily returns. -/
def validReturns (cl : List CRow) (t : String) : List ℚ :=
  ((dfv cl).filter (fun r => decide (r.ticker = some t))).filterMap (fun r => r.daily_return)

/-- Sample variance (`ddof=1`): NaN (`none`) for fewer than 2 observations. -/
def sampleVar (xs : List ℚ) : Option ℚ :=
  if xs.length < 2 then none
  else some ((xs.map (fun x => (x - meanQ xs) ^ 2)).sum / ((xs.length : ℚ) - 1))

/-- `df.groupby("Ticker")["daily_return"].std()`: one entry per group key. -/
def volatilitySeries (cl : List CRow) : List (String × Option ℚ) :=
  (volKeys cl).map (fun t => (t, sampleVar (validReturns cl t)))

end VolatilityAnalysis

namespace CorrelationAnalysis

/-!  Embedding of `src/correlation_analysis.py` (`main`): drop rows with no
`daily_return`, pivot to a (date × Ticker) matrix of returns
(`pivot_table`, default `aggfunc="mean"`), and take `DataFrame.corr()` —
pairwise Pearson correlation over the dates where both columns have a
value.

Pearson's `r = cov / sqrt(varx · vary)` is irrational in general, so an
entry is kept as the `PearsonRep` of its centred sums: the denoted float is
`cov / sqrt(varx · vary)`, which is NaN exactly when `varx · vary = 0`
(this includes fewer than 2 common observations and zero-variance
columns), `1` exactly when `cov > 0 ∧ cov² = varx · vary`, and two entries
denote the same float when their `cov` and `varx · vary` agree. -/

/-- `df.dropna(subset=["daily_return"])`. -/
def dfc (cl : List CRow) : List CRow := cl.filter (fun r => r.daily_return.isSome)

/-- Chronological order on dates. -/
def dLe (a b : Date) : Bool :=
  decide (a.1 < b.1) || (decide (a.1 = b.1) && decide (a.2 ≤ b.2))

/-- The pivot's row index: the distinct dates, sorted. -/
def corrDates (cl : List CRow) : List Date :=
  sortS dLe (drop_duplicates ((dfc cl).filterMap (fun r => r.date)))

/-- The pivot's column labels (and the matrix labels on both axes): the
distinct tickers, sorted. -/
def corrTickers (cl : List CRow) : List String :=
  sortS strLe (drop_duplicates ((dfc cl).filterMap (fun r => r.ticker)))

/-- One pivot cell: mean of the ticker's returns on that date, `none` when
the ticker has no observation that date. -/
def pivotVal (cl : List CRow) (t : String) (d : Date) : Option ℚ :=
  match ((dfc cl).filter
      (fun r => decide (r.ticker = some t) && decide (r.date = some d))).filterMap
      (fun r => r.daily_return) with
  | [] => none
  | xs => some (meanQ xs)

/-- The pairwise-complete observations of two columns. -/
def aligned (cl : List CRow) (t1 t2 : String) : List (ℚ × ℚ) :=
  (corrDates cl).filterMap (fun d =>
    match pivotVal cl t1 d, pivotVal cl t2 d with
    | some x, some y => some (x, y)
    | _, _ => none)

/-- Centred sums of a paired sample; the denoted Pearson correlation is
`cov / sqrt(varx · vary)`. -/
structure PearsonRep where
  n : ℕ
  cov : ℚ
  varx : ℚ
  vary : ℚ
deriving DecidableEq

def pearsonRep (xy : List (ℚ × ℚ)) : PearsonRep :=
  ⟨xy.length,
   (xy.map (fun p => (p.1 - meanQ (xy.map Prod.fst)) * (p.2 - meanQ (xy.map Prod.snd)))).sum,
   ((xy.map Prod.fst).map (fun x => (x - meanQ (xy.map Prod.fst)) ^ 2)).sum,
   ((xy.map Prod.snd).map (fun y => (y - meanQ (xy.map Prod.snd)) ^ 2)).sum⟩

/-- The denoted float is NaN iff the variance product vanishes. -/
def PearsonRep.isNaN (r : PearsonRep) : Bool := decide (r.varx * r.vary = 0)

/-- One entry of `correlation_matrix.csv`, keyed by (ticker, ticker). -/
def corrEntry (cl : List CRow) (t1 t2 : String) : PearsonRep :=
  pearsonRep (aligned cl t1 t2)

end CorrelationAnalysis

open Preparation in
/-- A ticker with two distinct daily returns (nonzero return variance). -/
def vcMaster : List Row := [scnRow "V" 1 1, scnRow "V" 2 2, scnRow "V" 3 1]

namespace CumulativeReturnAnalysis

/-!  Embedding of `src/cumulative_return_analysis.py` (`main`): drop rows
with no `daily_return`, re-sort by `(Ticker, date)`, and compute
`(1 + daily_return).groupby(Ticker).cumprod() - 1` — a per-ticker running
product carried in dataframe order. -/

/-- `dropna(subset=["daily_return"])` then
`sort_values(["Ticker", "date"], kind="stable")`. -/
def dfr (cl : List CRow) : List CRow :=
  sortS crowLe (cl.filter (fun r => r.daily_return.isSome))

/-- A cleaned row plus the `cumulative_return` column. -/
structure CumRow extends CRow where
  cumulative_return : ℚ
deriving DecidableEq

/-- One output row: running product so far times `(1 + daily_return)`,
minus 1.  (Rows reaching this point always carry a `daily_return`.) -/
def cumCell (p : Option ℚ) (r : CRow) : CumRow :=
  ⟨r, (p.getD 1) * (1 + r.daily_return.getD 0) - 1⟩

/-- The per-ticker running product of `(1 + daily_return)`. -/
def cumState (p : Option ℚ) (r : CRow) : ℚ :=
  (p.getD 1) * (1 + r.daily_return.getD 0)

/-- `cumulative_full.csv`: the full per-row time series. -/
def cumulative_full (cl : List CRow) : List CumRow :=
  keyedGo cumCell cumState (fun r => r.ticker) [] (dfr cl)

/-- Reference recurrence: `cum₀ = r₀`, `cumₖ = (1+cumₖ₋₁)(1+rₖ) - 1`,
written with the running product `p`. -/
def cumScanGo (p : ℚ) : List ℚ → List ℚ
  | [] => []
  | r :: rs => (p * (1 + r) - 1) :: cumScanGo (p * (1 + r)) rs

def cumScan (rs : List ℚ) : List ℚ := cumScanGo 1 rs

end CumulativeReturnAnalysis

namespace MonthlyPerformance

/-!  Embedding of `src/monthly_performance.py`: `calculate_monthly_return`
buckets rows by `(Ticker, month)` (`month = date.to_period("M")`, the first
component of our `(month, day)` dates), takes
`groupby(["Ticker", "month"])["close"].agg(["first", "last"])` and computes
`(last - first) / first`; `save_top_performers` keeps, per month,
`nlargest(5)` / `nsmallest(5)` by monthly return with a rank column
`1..len`.  The quotient is modelled exactly in `ℚ` (the unguarded zero
divisor is the subject of C10, not of this script's claims). -/

/-- `df.dropna(subset=["date"])`. -/
def dfm (cl : List CRow) : List CRow := cl.filter (fun r => r.date.isSome)

/-- `date.dt.to_period("M")`. -/
def monthOf (r : CRow) : Int :=
  match r.date with
  | some d => d.1
  | none => 0

/-- Order on `(Ticker, month)` group keys. -/
def skLe (a b : String × Int) : Bool :=
  if a.1 = b.1 then decide (a.2 ≤ b.2) else strLe a.1 b.1

/-- `groupby(["Ticker", "month"])` keys: distinct, sorted, NaN tickers
dropped. -/
def bucketKeys (cl : List CRow) : List (String × Int) :=
  sortS skLe (drop_duplicates
    ((dfm cl).filterMap (fun r => r.ticker.map (fun t => (t, monthOf r)))))

/-- The rows of one `(ticker, month)` bucket, in dataframe order. -/
def bucketRows (cl : List CRow) (t : String) (m : Int) : List CRow :=
  (dfm cl).filter (fun r => decide (r.ticker = some t) && decide (monthOf r = m))

/-- `agg "first"`: first non-missing close of the bucket. -/
def firstCloseB (rows : List CRow) : Option ℚ :=
  (rows.filterMap (fun r => r.close)).head?

/-- `agg "last"`: last non-missing close of the bucket. -/
def lastCloseB (rows : List CRow) : Option ℚ :=
  (rows.filterMap (fun r => r.close)).getLast?

/-- One row of the monthly-return table. -/
structure MonthlyRow where
  ticker : String
  month : Int
  monthly_return : ℚ
deriving DecidableEq

/-- `calculate_monthly_return`: one row per bucket,
`(last - first) / first`; buckets with no close at all are dropped
(`dropna(subset=["monthly_return"])`). -/
def monthlyTable (cl : List CRow) : List MonthlyRow :=
  (bucketKeys cl).filterMap (fun k =>
    match firstCloseB (bucketRows cl k.1 k.2), lastCloseB (bucketRows cl k.1 k.2) with
    | some f, some lc => some ⟨k.1, k.2, (lc - f) / f⟩
    | _, _ => none)

/-- `monthly["month"].unique()`: months in order of appearance. -/
def months (cl : List CRow) : List Int :=
  drop_duplicates ((monthlyTable cl).map (fun r => r.month))

/-- `monthly[monthly["month"] == month]`. -/
def monthData (cl : List CRow) (m : Int) : List MonthlyRow :=
  (monthlyTable cl).filter (fun r => decide (r.month = m))

/-- Descending order by monthly return (`nlargest`, stable ties). -/
def retGe (a b : MonthlyRow) : Bool := decide (b.monthly_return ≤ a.monthly_return)

/-- Ascending order by monthly return (`nsmallest`, stable ties). -/
def retLe (a b : MonthlyRow) : Bool := decide (a.monthly_return ≤ b.monthly_return)

/-- A monthly row plus its rank. -/
structure RankedRow extends MonthlyRow where
  rank : ℕ
deriving DecidableEq

/-- `range(1, len + 1)` attached as the `rank` column. -/
def addRanks : List MonthlyRow → ℕ → List RankedRow
  | [], _ => []
  | a :: l, k => ⟨a, k⟩ :: addRanks l (k + 1)

/-- `month_data.nlargest(5, "monthly_return")` with ranks `1..len`. -/
def gainers (cl : List CRow) (m : Int) : List RankedRow :=
  addRanks ((sortS retGe (monthData cl m)).take 5) 1

/-- `month_data.nsmallest(5, "monthly_return")` with ranks `1..len`. -/
def losers (cl : List CRow) (m : Int) : List RankedRow :=
  addRanks ((sortS retLe (monthData cl m)).take 5) 1

end MonthlyPerformance

open Preparation in
/-! ### Schema Normalizer (`src/yaml_to_csv.py`)

A parsed YAML document is a generic tree; `iter_records` pattern-matches
the four supported layouts, and `main` accumulates accepted records into a
per-ticker dict (`stocks_data.setdefault(ticker, []).append(row)`). Python
`None` and an absent key are both `nullV` here (`dict.get` conflates
them); Python truthiness of the ticker value is `truthy`. -/
inductive Yaml where
  | nullV : Yaml
  | boolV : Bool → Yaml
  | strV : String → Yaml
  | numV : ℚ → Yaml
  | listV : List Yaml → Yaml
  | dictV : List (String × Yaml) → Yaml

open Preparation in
mutual

/-- Structural equality of YAML values (Python `==` on parsed trees). -/
def yamlBeq : Yaml → Yaml → Bool
  | Yaml.nullV, Yaml.nullV => true
  | Yaml.boolV a, Yaml.boolV b => a == b
  | Yaml.strV a, Yaml.strV b => a == b
  | Yaml.numV a, Yaml.numV b => a == b
  | Yaml.listV a, Yaml.listV b => yamlBeqList a b
  | Yaml.dictV a, Yaml.dictV b => yamlBeqDict a b
  | _, _ => false

def yamlBeqList : List Yaml → List Yaml → Bool
  | [], [] => true
  | x :: xs, y :: ys => yamlBeq x y && yamlBeqList xs ys
  | _, _ => false

def yamlBeqDict : List (String × Yaml) → List (String × Yaml) → Bool
  | [], [] => true
  | (k1, v1) :: xs, (k2, v2) :: ys => k1 == k2 && yamlBeq v1 v2 && yamlBeqDict xs ys
  | _, _ => false

end

namespace YamlToCsv

/-- Python truthiness of a YAML value (`if not ticker: continue`). -/
def truthy : Yaml → Bool
  | Yaml.nullV => false
  | Yaml.boolV b => b
  | Yaml.strV s => !(s == "")
  | Yaml.numV q => !(q == 0)
  | Yaml.listV l => !l.isEmpty
  | Yaml.dictV d => !d.isEmpty

/-- `record.get(key)`: the value under the first matching key, `None`
(= `nullV`) when absent. -/
def rget : List (String × Yaml) → String → Yaml
  | [], _ => Yaml.nullV
  | (k', v) :: d, k => if k' == k then v else rget d k

/-- Python `key in dict`: key presence regardless of value. -/
def hasKey (d : List (String × Yaml)) (k : String) : Bool :=
  d.any (fun p => p.1 == k)

/-- `record.get("Ticker") or record.get("ticker")`. -/
def tickerVal (r : List (String × Yaml)) : Yaml :=
  if truthy (rget r "Ticker") then rget r "Ticker" else rget r "ticker"

/-- Keep only dict items (`if isinstance(item, dict)`). -/
def toDict : Yaml → Option (List (String × Yaml))
  | Yaml.dictV d => some d
  | _ => none

/-- `iter_records`: the four supported document shapes, in priority order
(list → `"daily"` list → direct record → nested values). -/
def iter_records : Yaml → List (List (String × Yaml))
  | Yaml.listV items => items.filterMap toDict
  | Yaml.dictV fields =>
      match rget fields "daily" with
      | Yaml.listV items => items.filterMap toDict
      | _ =>
          if hasKey fields "Ticker" || hasKey fields "ticker" then [fields]
          else fields.flatMap (fun p =>
            match p.2 with
            | Yaml.dictV d =>
                if hasKey d "Ticker" || hasKey d "ticker" then [d] else []
            | Yaml.listV items =>
                items.filterMap (fun v =>
                  match v with
                  | Yaml.dictV d =>
                      if hasKey d "Ticker" || hasKey d "ticker" then some d else none
                  | _ => none)
            | _ => [])
  | _ => []

/-- `ensure_row`: the fixed output schema. -/
structure OutRow where
  date : Yaml
  open_ : Yaml
  high : Yaml
  low : Yaml
  close : Yaml
  volume : Yaml
  ticker : Yaml

def ensure_row (r : List (String × Yaml)) : OutRow :=
  ⟨rget r "date", rget r "open", rget r "high", rget r "low", rget r "close",
   rget r "volume", tickerVal r⟩

def isNullV : Yaml → Bool
  | Yaml.nullV => true
  | _ => false

/-- `row["open"] is None and ... and row["close"] is None`. -/
def allPricesNull (row : OutRow) : Bool :=
  isNullV row.open_ && isNullV row.high && isNullV row.low && isNullV row.close

/-- A Python dict lookup on the accumulated `stocks_data`. -/
def lookY : List (Yaml × List OutRow) → Yaml → Option (List OutRow)
  | [], _ => none
  | (k, v) :: sd, t => if yamlBeq k t then some v else lookY sd t

/-- `stocks_data.setdefault(ticker, []).append(row)`. -/
def addRowY : List (Yaml × List OutRow) → Yaml → OutRow → List (Yaml × List OutRow)
  | [], t, row => [(t, [row])]
  | (k, rs) :: sd, t, row =>
      if yamlBeq k t then (k, rs ++ [row]) :: sd else (k, rs) :: addRowY sd t row

/-- The body of the record loop in `main`: skip falsy tickers, skip rows
with all four prices missing, append the rest. -/
def processRecord (sd : List (Yaml × List OutRow)) (r : List (String × Yaml)) :
    List (Yaml × List OutRow) :=
  if truthy (tickerVal r) then
    if allPricesNull (ensure_row r) then sd
    else addRowY sd (tickerVal r) (ensure_row r)
  else sd

/-- `main`'s accumulation over all files and records of each file. -/
def stocks_data (files : List Yaml) : List (Yaml × List OutRow) :=
  files.foldl (fun sd p => (iter_records p).foldl processRecord sd) []

/-- The accepted `(ticker, row)` pairs of the whole run, in order. -/
def acceptedPairs (files : List Yaml) : List (Yaml × OutRow) :=
  files.flatMap (fun p => (iter_records p).filterMap (fun r =>
    if truthy (tickerVal r) && !(allPricesNull (ensure_row r)) then
      some (tickerVal r, ensure_row r)
    else none))

/-- The rows the spec assigns to ticker `t`: every yielded record with a
truthy ticker equal to `t` and at least one price field present, across
*all* files, in order. -/
def acceptedRows (files : List Yaml) (t : Yaml) : List OutRow :=
  files.flatMap (fun p => (iter_records p).filterMap (fun r =>
    if truthy (tickerVal r) && !(allPricesNull (ensure_row r)) &&
        yamlBeq (tickerVal r) t then
      some (ensure_row r)
    else none))

end StockAnalysis.YamlToCsv

namespace StockAnalysis

theorem insertS_perm {α : Type} (le : α → α → Bool) (a : α) (l : List α) :
    List.Perm (insertS le a l) (a :: l) := by
  induction l with
  | nil => simp [insertS]
  | cons b l ih =>
      by_cases h : le a b
      · simp [insertS, h]
      · simp only [insertS, h, if_neg]
        exact List.Perm.trans (List.Perm.cons b ih) (List.Perm.swap a b l)

theorem sortS_perm {α : Type} (le : α → α → Bool) (l : List α) :
    List.Perm (sortS le l) l := by
  induction l with
  | nil => simp [sortS]
  | cons a l ih =>
      exact List.Perm.trans (insertS_perm le a (sortS le l)) (List.Perm.cons a ih)

theorem insertS_pairwise {α : Type} (le : α → α → Bool)
    (htrans : ∀ a b c, le a b = true → le b c = true → le a c = true)
    (htot : ∀ a b, le a b || le b a)
    (a : α) (l : List α) (hl : List.Pairwise (fun x y => le x y = true) l) :
    List.Pairwise (fun x y => le x y = true) (insertS le a l) := by
  induction l with
  | nil => simp [insertS]
  | cons b l ih =>
      obtain ⟨hb, hl⟩ := List.pairwise_cons.1 hl
      by_cases h : le a b
      · simp only [insertS, h, if_pos]
        refine List.Pairwise.cons ?_ (List.Pairwise.cons hb hl)
        intro x hx
        rcases List.mem_cons.1 hx with rfl | hx
        · exact h
        · exact htrans a b x h (hb x hx)
      · simp only [insertS, h, if_neg]
        refine List.Pairwise.cons ?_ (ih hl)
        intro x hx
        have hmem := (insertS_perm le a l).mem_iff.1 hx
        rcases List.mem_cons.1 hmem with h1 | hx'
        · have htt := htot a b
          rw [Bool.or_eq_true] at htt
          rcases htt with h' | h'
          · exact absurd h' h
          · rw [h1]; exact h'
        · exact hb x hx'

theorem sortS_pairwise {α : Type} (le : α → α → Bool)
    (htrans : ∀ a b c, le a b = true → le b c = true → le a c = true)
    (htot : ∀ a b, le a b || le b a) (l : List α) :
    List.Pairwise (fun x y => le x y = true) (sortS le l) := by
  induction l with
  | nil => simp [sortS]
  | cons a l ih => exact insertS_pairwise le htrans htot a (sortS le l) ih

theorem dedupFirstAux_nodup {α : Type} [DecidableEq α] :
    ∀ (l seen : List α), (∀ x ∈ dedupFirstAux seen l, x ∉ seen) ∧
      (dedupFirstAux seen l).Nodup := by
  intro l
  induction l with
  | nil => intro seen; exact ⟨by intro x hx; simp [dedupFirstAux] at hx, List.nodup_nil⟩
  | cons a l ih =>
      intro seen
      by_cases h : a ∈ seen
      · simpa [dedupFirstAux, h] using ih seen
      · have hni := (ih (a :: seen)).1
        have hnd := (ih (a :: seen)).2
        constructor
        · intro x hx hxs
          rw [dedupFirstAux, if_neg h] at hx
          rcases List.mem_cons.1 hx with h1 | h2
          · subst h1; exact h hxs
          · exact hni x h2 (List.mem_cons.2 (Or.inr hxs))
        · rw [dedupFirstAux, if_neg h]
          refine List.nodup_cons.2 ⟨?_, hnd⟩
          intro ha
          exact hni a ha (List.mem_cons.2 (Or.inl rfl))

/-- The output of `drop_duplicates` has no two equal rows. -/
theorem drop_duplicates_nodup {α : Type} [DecidableEq α] (l : List α) :
    (drop_duplicates l).Nodup :=
  (dedupFirstAux_nodup l []).2

theorem lookA_updA {κ σ : Type} [DecidableEq κ]
    (st : List (κ × σ)) (k : κ) (v : σ) (k' : κ) :
    lookA (updA st k v) k' = if k = k' then some v else lookA st k' := by
  induction st with
  | nil => simp [updA, lookA]
  | cons p st ih =>
      obtain ⟨k0, w⟩ := p
      by_cases h : k0 = k
      · subst h
        by_cases h' : k0 = k' <;> simp [updA, lookA, h']
      · by_cases h' : k0 = k'
        · subst h'
          have : ¬ k = k0 := fun he => h he.symm
          simp [updA, lookA, h, this]
        · simp [updA, lookA, h, h', ih]

theorem stSpec_append {κ σ α : Type} [DecidableEq κ]
    (u : Option σ → α → σ) (key : α → κ) (pre : List α) (a : α) (k : κ) :
    stSpec u key (pre ++ [a]) k =
      if key a = k then some (u (stSpec u key pre k) a) else stSpec u key pre k := by
  simp [stSpec, List.foldl_append]

/-- Positional characterization of the keyed grouped fold: the `i`-th output
row is `f s aᵢ` where `s` is the fold of `u` over exactly the earlier rows
with the same key as `aᵢ`. -/
theorem keyedGo_getElem? {κ σ α β : Type} [DecidableEq κ]
    (f : Option σ → α → β) (u : Option σ → α → σ) (key : α → κ) :
    ∀ (l : List α) (st : List (κ × σ)) (pre : List α),
      (∀ k, lookA st k = stSpec u key pre k) →
      ∀ i, (keyedGo f u key st l)[i]? =
        (l[i]?).map (fun a => f (stSpec u key (pre ++ l.take i) (key a)) a) := by
  intro l
  induction l with
  | nil => intro st pre _ i; simp [keyedGo]
  | cons a l ih =>
      intro st pre hst i
      cases i with
      | zero =>
          simp [keyedGo, hst (key a)]
      | succ i =>
          have hst' : ∀ k, lookA (updA st (key a) (u (lookA st (key a)) a)) k =
              stSpec u key (pre ++ [a]) k := by
            intro k
            rw [lookA_updA, stSpec_append, hst (key a), hst k]
            by_cases h : key a = k
            · subst h; simp
            · simp [h]
          have := ih (updA st (key a) (u (lookA st (key a)) a)) (pre ++ [a]) hst' i
          simpa [keyedGo, List.append_assoc] using this

theorem keyedGo_length {κ σ α β : Type} [DecidableEq κ]
    (f : Option σ → α → β) (u : Option σ → α → σ) (key : α → κ) :
    ∀ (l : List α) (st : List (κ × σ)), (keyedGo f u key st l).length = l.length := by
  intro l
  induction l with
  | nil => intro st; rfl
  | cons a l ih => intro st; simp [keyedGo, ih]

theorem tickerLe_total (a b : Option String) : tickerLe a b || tickerLe b a := by
  cases a <;> cases b <;> simp [tickerLe]
  exact le_total _ _

theorem tickerLe_trans (a b c : Option String) :
    tickerLe a b = true → tickerLe b c = true → tickerLe a c = true := by
  intro h1 h2
  cases c with
  | none => cases a <;> rfl
  | some cv =>
      cases b with
      | none => exact absurd h2 (by simp [tickerLe])
      | some bv =>
          cases a with
          | none => exact absurd h1 (by simp [tickerLe])
          | some av =>
              simp only [tickerLe, decide_eq_true_eq] at h1 h2 ⊢
              exact le_trans h1 h2

theorem tickerLe_antisymm (a b : Option String) :
    tickerLe a b = true → tickerLe b a = true → a = b := by
  intro h1 h2
  cases a with
  | none =>
      cases b with
      | none => rfl
      | some bv => exact absurd h1 (by simp [tickerLe])
  | some av =>
      cases b with
      | none => exact absurd h2 (by simp [tickerLe])
      | some bv =>
          simp only [tickerLe, decide_eq_true_eq] at h1 h2
          exact congrArg Option.some (le_antisymm h1 h2)

theorem dateOLe_total (a b : Option Date) : dateOLe a b || dateOLe b a := by
  cases a with
  | none => cases b <;> simp [dateOLe]
  | some x =>
      cases b with
      | none => simp [dateOLe]
      | some y =>
          simp only [dateOLe, Bool.or_eq_true, decide_eq_true_eq, Bool.and_eq_true]
          rcases lt_trichotomy x.1 y.1 with h | h | h
          · exact Or.inl (Or.inl h)
          · rcases le_total x.2 y.2 with h2 | h2
            · exact Or.inl (Or.inr ⟨h, h2⟩)
            · exact Or.inr (Or.inr ⟨h.symm, h2⟩)
          · exact Or.inr (Or.inl h)

theorem dateOLe_trans (a b c : Option Date) :
    dateOLe a b = true → dateOLe b c = true → dateOLe a c = true := by
  cases a with
  | none => cases b <;> cases c <;> simp [dateOLe]
  | some x =>
      cases b with
      | none => cases c <;> simp [dateOLe]
      | some y =>
          cases c with
          | none => simp [dateOLe]
          | some z =>
              simp only [dateOLe, Bool.or_eq_true, decide_eq_true_eq, Bool.and_eq_true]
              rintro (h1 | ⟨h1, h1'⟩) (h2 | ⟨h2, h2'⟩)
              · exact Or.inl (lt_trans h1 h2)
              · exact Or.inl (h2 ▸ h1)
              · exact Or.inl (h1 ▸ h2)
              · exact Or.inr ⟨h1.trans h2, le_trans h1' h2'⟩

theorem keyLe_total (a b : Option String × Option Date) : keyLe a b || keyLe b a := by
  by_cases h : a.1 = b.1
  · simp [keyLe, h, dateOLe_total]
  · have h' : ¬ b.1 = a.1 := fun he => h he.symm
    simp [keyLe, h, h', tickerLe_total]

theorem keyLe_trans (a b c : Option String × Option Date) :
    keyLe a b = true → keyLe b c = true → keyLe a c = true := by
  intro ha hb
  unfold keyLe at ha hb ⊢
  by_cases h1 : a.1 = b.1 <;> by_cases h2 : b.1 = c.1
  · have h3 : a.1 = c.1 := h1.trans h2
    rw [if_pos h1] at ha
    rw [if_pos h2] at hb
    rw [if_pos h3]
    exact dateOLe_trans _ _ _ ha hb
  · have h3 : ¬ a.1 = c.1 := fun he => h2 (h1 ▸ he)
    rw [if_neg h2] at hb
    rw [if_neg h3, h1]
    exact hb
  · have h3 : ¬ a.1 = c.1 := fun he => h1 (he.trans h2.symm)
    rw [if_neg h1] at ha
    rw [if_neg h3, ← h2]
    exact ha
  · rw [if_neg h1] at ha
    rw [if_neg h2] at hb
    by_cases h3 : a.1 = c.1
    · exact absurd (tickerLe_antisymm _ _ ha (h3 ▸ hb)) h1
    · rw [if_neg h3]
      exact tickerLe_trans _ _ _ ha hb

theorem rowLe_total (a b : Row) : rowLe a b || rowLe b a := keyLe_total _ _

theorem rowLe_trans (a b c : Row) :
    rowLe a b = true → rowLe b c = true → rowLe a c = true := keyLe_trans _ _ _

theorem crowLe_total (a b : CRow) : crowLe a b || crowLe b a := keyLe_total _ _

theorem crowLe_trans (a b c : CRow) :
    crowLe a b = true → crowLe b c = true → crowLe a c = true := keyLe_trans _ _ _

namespace Preparation

theorem prepare_eq (master : List Row) :
    prepare master = pctChangeByTicker (ffilled master) := rfl

/-- Transport a fold along a relation between the two accumulators. -/
theorem foldl_rel {α β γ : Type} (f : β → α → β) (g : γ → α → γ) (R : β → γ → Prop)
    (hstep : ∀ b c a, R b c → R (f b a) (g c a)) :
    ∀ (l : List α) (b : β) (c : γ), R b c → R (l.foldl f b) (l.foldl g c) := by
  intro l
  induction l with
  | nil => intro b c h; exact h
  | cons a l ih => intro b c h; exact ih (f b a) (g c a) (hstep b c a h)

/-- Project the forward-fill state onto one value column: the state row's
column `g` is exactly the last non-missing `g` of the ticker's prior rows. -/
theorem ffillState_field (g : Row → Option ℚ)
    (hnone : g noneRow = none)
    (hg : ∀ (prev r : Row), g (fillRow prev r) = fillVal (g r) (g prev)) :
    ∀ (pre : List Row) (t : Option String),
      g ((stSpec (fun prev r => fillRow (prev.getD noneRow) r) Row.ticker pre t).getD noneRow)
        = lastField g t pre := by
  intro pre t
  refine foldl_rel _ _ (fun (b : Option Row) (c : Option ℚ) => g (b.getD noneRow) = c)
    ?_ pre none none (by simpa using hnone)
  intro b c r h
  by_cases ht : r.ticker = t
  · simp only [ht, if_pos]
    rw [Option.getD_some, hg, h]
    cases hr : g r <;> simp [fillVal]
  · rw [if_neg ht, if_neg ht]; exact h

/-- The `pct_change` state is the last non-missing `close` of the ticker's
prior rows. -/
theorem pctState_lastClose :
    ∀ (pre : List Row) (t : Option String),
      (stSpec pctState Row.ticker pre t).getD none = lastField Row.close t pre := by
  intro pre t
  refine foldl_rel _ _
    (fun (b : Option (Option ℚ)) (c : Option ℚ) => b.getD none = c) ?_ pre none none rfl
  intro b c r h
  by_cases ht : r.ticker = t
  · simp only [ht, if_pos, Option.getD_some]
    cases hr : r.close <;> simp [pctState, hr, h]
  · rw [if_neg ht, if_neg ht]; exact h

theorem ffill_getElem? (l : List Row) (i : ℕ) :
    (ffillByTicker l)[i]? = (l[i]?).map
      (fun r => fillRow
        ((stSpec (fun prev r => fillRow (prev.getD noneRow) r) Row.ticker (l.take i) r.ticker).getD
          noneRow) r) := by
  have h := keyedGo_getElem? (fun prev r => fillRow (prev.getD noneRow) r)
    (fun prev r => fillRow (prev.getD noneRow) r) Row.ticker l [] []
    (fun k => rfl) i
  simpa [ffillByTicker] using h

theorem pctChange_getElem? (l : List Row) (i : ℕ) :
    (pctChangeByTicker l)[i]? = (l[i]?).map
      (fun r => pctCell (stSpec pctState Row.ticker (l.take i) r.ticker) r) := by
  have h := keyedGo_getElem? pctCell pctState Row.ticker l [] [] (fun k => rfl) i
  simpa [pctChangeByTicker] using h

theorem fillRow_ticker (prev r : Row) : (fillRow prev r).ticker = r.ticker := rfl

theorem fillRow_date (prev r : Row) : (fillRow prev r).date = r.date := rfl

theorem pctCell_toRow (prev : Option (Option ℚ)) (r : Row) : (pctCell prev r).toRow = r := rfl

theorem mem_dropnaTC {master : List Row} {r : Row} (h : r ∈ dropnaTC master) :
    r.ticker.isSome ∧ r.close.isSome := by
  have := List.of_mem_filter h
  simp only [Bool.and_eq_true] at this
  exact ⟨this.1, this.2⟩

theorem mem_cleanedSorted {master : List Row} {r : Row} (h : r ∈ cleanedSorted master) :
    r ∈ dropnaTC master :=
  (sortS_perm rowLe (dropnaTC master)).mem_iff.1 h

theorem ffilled_getElem?_some {master : List Row} {i : ℕ} {r2 : Row}
    (h : (ffilled master)[i]? = some r2) :
    ∃ r, (cleanedSorted master)[i]? = some r ∧
      r2 = fillRow
        ((stSpec (fun prev r => fillRow (prev.getD noneRow) r) Row.ticker
          ((cleanedSorted master).take i) r.ticker).getD noneRow) r := by
  rw [ffilled] at h
  rw [ffill_getElem? (cleanedSorted master) i] at h
  obtain ⟨r, hr, hfr⟩ := Option.map_eq_some'.1 h
  exact ⟨r, hr, hfr.symm⟩

theorem ffilled_close_isSome {master : List Row} {i : ℕ} {r2 : Row}
    (h : (ffilled master)[i]? = some r2) : r2.close.isSome := by
  obtain ⟨r, hr, hfill⟩ := ffilled_getElem?_some h
  have hmem : r ∈ cleanedSorted master := by
    have := List.getElem?_eq_some_iff.1 hr
    obtain ⟨hi, hget⟩ := this
    exact hget ▸ List.getElem_mem hi
  have hc := (mem_dropnaTC (mem_cleanedSorted hmem)).2
  rw [hfill]
  show (fillVal r.close _).isSome
  cases hcl : r.close with
  | none => rw [hcl] at hc; simp at hc
  | some x => simp [fillVal]

theorem mem_ffilled_close_isSome {master : List Row} {r2 : Row}
    (h : r2 ∈ ffilled master) : r2.close.isSome := by
  obtain ⟨i, hi, hget⟩ := List.mem_iff_getElem.1 h
  exact ffilled_close_isSome (by rw [List.getElem?_eq_some_iff]; exact ⟨hi, hget⟩)

/-- `lastField` collects exactly the last non-missing `g`-value of the
same-ticker rows. -/
theorem lastField_eq_getLast? (g : Row → Option ℚ) (t : Option String) :
    ∀ (pre : List Row),
      lastField g t pre = ((pre.filter (fun r => decide (r.ticker = t))).filterMap g).getLast? := by
  intro pre
  induction pre using List.reverseRecOn with
  | nil => rfl
  | append_singleton pre r ih =>
      rw [lastField, List.foldl_append]
      simp only [List.foldl_cons, List.foldl_nil]
      rw [← lastField]
      rw [List.filter_append, List.filterMap_append]
      by_cases ht : r.ticker = t
      · rw [if_pos ht]
        have h1 : List.filter (fun p => decide (p.ticker = t)) [r] = [r] := by simp [ht]
        rw [h1]
        cases hg : g r with
        | none =>
            have h2 : List.filterMap g [r] = [] := by simp [hg]
            rw [h2, List.append_nil]
            exact ih
        | some x =>
            have h2 : List.filterMap g [r] = [x] := by simp [hg]
            rw [h2, List.getLast?_concat]
      · rw [if_neg ht]
        have h1 : List.filter (fun p => decide (p.ticker = t)) [r] = [] := by simp [ht]
        rw [h1, List.filterMap_nil, List.append_nil]
        exact ih

/-- When `g` is defined on every element, the last collected value is `g` of
the last element. -/
theorem filterMap_getLast?_of_isSome {α : Type} (g : α → Option ℚ) :
    ∀ (l : List α), (∀ x ∈ l, (g x).isSome) →
      (l.filterMap g).getLast? = l.getLast?.bind g := by
  intro l
  induction l with
  | nil => intro _; rfl
  | cons a l ih =>
      intro h
      have ha : (g a).isSome := h a (List.mem_cons_self a l)
      obtain ⟨x, hx⟩ := Option.isSome_iff_exists.1 ha
      cases l with
      | nil => simp [List.filterMap_cons, hx]
      | cons b l =>
          have hne : (List.filterMap g (b :: l)) ≠ [] := by
            have hb : (g b).isSome := h b (by simp)
            obtain ⟨y, hy⟩ := Option.isSome_iff_exists.1 hb
            simp [List.filterMap_cons, hy]
          obtain ⟨y, rest, hrest⟩ := List.exists_cons_of_ne_nil hne
          have houter : List.filterMap g (a :: b :: l) = x :: List.filterMap g (b :: l) := by
            rw [List.filterMap_cons, hx]
          rw [houter, hrest, List.getLast?_cons_cons, ← hrest]
          rw [ih (fun x hxm => h x (List.mem_cons_of_mem a hxm))]
          rw [List.getLast?_cons_cons]

end Preparation

open Preparation in
/-- **C1.** In the Cleaner's output, forward-filling is ticker-scoped: each
cleaned row keeps its ticker and date, and a missing open/high/low/volume
cell is replaced exactly by the most recent non-missing value among the
*earlier rows of the same ticker* in the sorted table (`lastField` folds
over same-ticker rows only); if there is no such prior value the cell stays
missing (`fillVal none none = none`). -/
theorem C1_ffill_ticker_scoped (master : List Row) (i : ℕ) (r : Row)
    (h : (cleanedSorted master)[i]? = some r) :
    ∃ c : CRow, (prepare master)[i]? = some c ∧
      c.ticker = r.ticker ∧ c.date = r.date ∧
      c.open_ = fillVal r.open_ (lastField Row.open_ r.ticker ((cleanedSorted master).take i)) ∧
      c.high = fillVal r.high (lastField Row.high r.ticker ((cleanedSorted master).take i)) ∧
      c.low = fillVal r.low (lastField Row.low r.ticker ((cleanedSorted master).take i)) ∧
      c.volume = fillVal r.volume
        (lastField Row.volume r.ticker ((cleanedSorted master).take i)) := by
  have hff : (ffilled master)[i]? = some
      (fillRow ((stSpec (fun prev r => fillRow (prev.getD noneRow) r) Row.ticker
        ((cleanedSorted master).take i) r.ticker).getD noneRow) r) := by
    rw [ffilled, ffill_getElem?, h]
    rfl
  have hpc := pctChange_getElem? (ffilled master) i
  rw [hff] at hpc
  rw [prepare_eq]
  refine ⟨_, hpc.trans rfl, ?_, ?_, ?_, ?_, ?_, ?_⟩
  · show (fillRow _ r).ticker = r.ticker
    rfl
  · show (fillRow _ r).date = r.date
    rfl
  · show (fillRow _ r).open_ = _
    rw [show (fillRow ((stSpec (fun prev r => fillRow (prev.getD noneRow) r) Row.ticker
      ((cleanedSorted master).take i) r.ticker).getD noneRow) r).open_ =
      fillVal r.open_ ((stSpec (fun prev r => fillRow (prev.getD noneRow) r) Row.ticker
      ((cleanedSorted master).take i) r.ticker).getD noneRow).open_ from rfl]
    rw [ffillState_field Row.open_ rfl (fun prev r => rfl)]
  · show (fillRow _ r).high = _
    rw [show (fillRow ((stSpec (fun prev r => fillRow (prev.getD noneRow) r) Row.ticker
      ((cleanedSorted master).take i) r.ticker).getD noneRow) r).high =
      fillVal r.high ((stSpec (fun prev r => fillRow (prev.getD noneRow) r) Row.ticker
      ((cleanedSorted master).take i) r.ticker).getD noneRow).high from rfl]
    rw [ffillState_field Row.high rfl (fun prev r => rfl)]
  · show (fillRow _ r).low = _
    rw [show (fillRow ((stSpec (fun prev r => fillRow (prev.getD noneRow) r) Row.ticker
      ((cleanedSorted master).take i) r.ticker).getD noneRow) r).low =
      fillVal r.low ((stSpec (fun prev r => fillRow (prev.getD noneRow) r) Row.ticker
      ((cleanedSorted master).take i) r.ticker).getD noneRow).low from rfl]
    rw [ffillState_field Row.low rfl (fun prev r => rfl)]
  · show (fillRow _ r).volume = _
    rw [show (fillRow ((stSpec (fun prev r => fillRow (prev.getD noneRow) r) Row.ticker
      ((cleanedSorted master).take i) r.ticker).getD noneRow) r).volume =
      fillVal r.volume ((stSpec (fun prev r => fillRow (prev.getD noneRow) r) Row.ticker
      ((cleanedSorted master).take i) r.ticker).getD noneRow).volume from rfl]
    rw [ffillState_field Row.volume rfl (fun prev r => rfl)]

open Preparation in
/-- **C2.** `daily_return` of a cleaned row is missing exactly when the row
has no earlier row of its own ticker in the (forward-filled, sorted) table;
otherwise it equals this row's close divided by the close of the immediately
preceding row of the same ticker, minus 1. -/
theorem C2_daily_return_def (master : List Row) (i : ℕ) (c : CRow)
    (h : (prepare master)[i]? = some c) :
    (c.daily_return = none ↔
      ((ffilled master).take i).filter (fun p => decide (p.ticker = c.ticker)) = []) ∧
    (∀ p pc x,
      (((ffilled master).take i).filter
          (fun p => decide (p.ticker = c.ticker))).getLast? = some p →
      p.close = some pc → c.close = some x →
      c.daily_return = some (x / pc - 1)) := by
  rw [prepare_eq] at h
  rw [pctChange_getElem? (ffilled master) i] at h
  obtain ⟨r2, hr2, hc⟩ := Option.map_eq_some'.1 h
  have hct : c.ticker = r2.ticker := by rw [← hc]; rfl
  have hcc : c.close = r2.close := by rw [← hc]; rfl
  have hr2c : r2.close.isSome := ffilled_close_isSome hr2
  obtain ⟨x0, hx0⟩ := Option.isSome_iff_exists.1 hr2c
  have htake : ∀ p ∈ ((ffilled master).take i).filter
      (fun p => decide (p.ticker = c.ticker)), p.close.isSome := by
    intro p hp
    exact mem_ffilled_close_isSome (List.mem_of_mem_take (List.mem_of_mem_filter hp))
  have hprev : (stSpec pctState Row.ticker ((ffilled master).take i) r2.ticker).getD none =
      (((ffilled master).take i).filter
        (fun p => decide (p.ticker = c.ticker))).getLast?.bind Row.close := by
    rw [pctState_lastClose, ← hct]
    rw [lastField_eq_getLast? Row.close c.ticker]
    exact filterMap_getLast?_of_isSome Row.close _ htake
  have hdr : c.daily_return =
      match (stSpec pctState Row.ticker ((ffilled master).take i) r2.ticker).getD none,
        r2.close with
      | some pc, some x => some (x / pc - 1)
      | _, _ => none := by
    rw [← hc]
    rfl
  constructor
  · rw [hdr, hx0]
    cases hfl : (((ffilled master).take i).filter
        (fun p => decide (p.ticker = c.ticker))).getLast? with
    | none =>
        rw [hprev, hfl]
        have hemp : ((ffilled master).take i).filter
            (fun p => decide (p.ticker = c.ticker)) = [] := by
          cases hl : ((ffilled master).take i).filter
              (fun p => decide (p.ticker = c.ticker)) with
          | nil => rfl
          | cons q l => rw [hl] at hfl; simp [List.getLast?_eq_getLast] at hfl
        simp [hemp]
    | some p =>
        have hpmem : p ∈ ((ffilled master).take i).filter
            (fun p => decide (p.ticker = c.ticker)) := by
          have hne : ((ffilled master).take i).filter
              (fun p => decide (p.ticker = c.ticker)) ≠ [] := by
            intro hq; rw [hq] at hfl; simp at hfl
          rw [← List.getLast_eq_iff_getLast?_eq_some hne] at hfl
          rw [← hfl]
          exact List.getLast_mem hne
        obtain ⟨pc, hpc⟩ := Option.isSome_iff_exists.1 (htake p hpmem)
        rw [hprev, hfl]
        rw [show (some p).bind Row.close = Row.close p from rfl, hpc]
        constructor
        · intro hcontra; exact absurd hcontra (by simp)
        · intro hcontra
          rw [hcontra] at hfl
          simp at hfl
  · intro p pc x hlast hpcl hcx
    rw [hdr, hprev, hlast]
    rw [show (some p).bind Row.close = Row.close p from rfl, hpcl]
    rw [hcc] at hcx
    rw [hcx]

open Preparation in
theorem C1_ffill_ticker_scoped_witness :
    ∃ c : CRow, (prepare wMaster)[1]? = some c ∧
      c.ticker = wRow2.ticker ∧ c.date = wRow2.date ∧
      c.open_ = fillVal wRow2.open_
        (lastField Row.open_ wRow2.ticker ((cleanedSorted wMaster).take 1)) ∧
      c.high = fillVal wRow2.high
        (lastField Row.high wRow2.ticker ((cleanedSorted wMaster).take 1)) ∧
      c.low = fillVal wRow2.low
        (lastField Row.low wRow2.ticker ((cleanedSorted wMaster).take 1)) ∧
      c.volume = fillVal wRow2.volume
        (lastField Row.volume wRow2.ticker ((cleanedSorted wMaster).take 1)) :=
  C1_ffill_ticker_scoped wMaster 1 wRow2 (by decide)

open Preparation in
theorem C2_daily_return_def_witness :
    (wClean2.daily_return = none ↔
      ((ffilled wMaster).take 1).filter (fun p => decide (p.ticker = wClean2.ticker)) = []) ∧
    (∀ p pc x,
      (((ffilled wMaster).take 1).filter
          (fun p => decide (p.ticker = wClean2.ticker))).getLast? = some p →
      p.close = some pc → wClean2.close = some x →
      wClean2.daily_return = some (x / pc - 1)) :=
  C2_daily_return_def wMaster 1 wClean2 (by with_unfolding_all decide)

namespace CombineCsvs

theorem masterTable_nodup (frames : List (List Row)) : (masterTable frames).Nodup :=
  ((sortS_perm rowLe (drop_duplicates frames.flatten)).nodup_iff).2
    (drop_duplicates_nodup frames.flatten)

end CombineCsvs

namespace Preparation

/-- `prepare` keeps each row's ticker and date. -/
theorem prepare_getElem?_key (master : List Row) (i : ℕ) (c : CRow)
    (h : (prepare master)[i]? = some c) :
    ∃ r, (cleanedSorted master)[i]? = some r ∧ c.ticker = r.ticker ∧ c.date = r.date := by
  rw [prepare_eq, pctChange_getElem? (ffilled master) i] at h
  obtain ⟨r2, hr2, hc⟩ := Option.map_eq_some'.1 h
  obtain ⟨r, hr, hfill⟩ := ffilled_getElem?_some hr2
  refine ⟨r, hr, ?_, ?_⟩
  · rw [← hc, hfill]; rfl
  · rw [← hc, hfill]; rfl

/-- The sorted table is pairwise `rowLe`-ordered. -/
theorem cleanedSorted_pairwise (master : List Row) :
    List.Pairwise (fun a b => rowLe a b = true) (cleanedSorted master) :=
  sortS_pairwise rowLe rowLe_trans rowLe_total (dropnaTC master)

end Preparation

open Preparation in
open Preparation CombineCsvs in
/-- **C3 (amended).** The master table built by the Consolidator has no two
fully identical rows, and within the Cleaner's output each ticker's rows
appear with non-decreasing dates.  (Duplicate `(ticker, date)` pairs that
differ in another field are *not* removed — see the counterexample.) -/
theorem C3_sorted_and_row_unique (frames : List (List Row)) :
    (masterTable frames).Nodup ∧
    (∀ (i j : ℕ) (ci cj : CRow), i < j →
      (prepare (masterTable frames))[i]? = some ci →
      (prepare (masterTable frames))[j]? = some cj →
      ci.ticker = cj.ticker → dateOLe ci.date cj.date = true) := by
  refine ⟨masterTable_nodup frames, ?_⟩
  intro i j ci cj hij hi hj htk
  obtain ⟨ri, hri, hti, hdi⟩ := prepare_getElem?_key _ i ci hi
  obtain ⟨rj, hrj, htj, hdj⟩ := prepare_getElem?_key _ j cj hj
  obtain ⟨hil, hie⟩ := List.getElem?_eq_some_iff.1 hri
  obtain ⟨hjl, hje⟩ := List.getElem?_eq_some_iff.1 hrj
  have hpw := cleanedSorted_pairwise (masterTable frames)
  have hle : rowLe ri rj = true := by
    have := List.pairwise_iff_getElem.1 hpw i j hil hjl hij
    rw [hie, hje] at this
    exact this
  have hkey : ri.ticker = rj.ticker := by rw [← hti, ← htj, htk]
  rw [rowLe, keyLe] at hle
  rw [if_pos hkey] at hle
  rw [hdi, hdj]
  exact hle

open Preparation in
open Preparation CombineCsvs in
/-- **C3 (counterexample).** Running the Consolidator and the Cleaner on two
rows that share `(ticker, date)` but differ in `close` yields a Cleaned
Table whose two rows have the *same* `(ticker, date)` pair: the pipeline
deduplicates only fully identical rows, so "no duplicate (ticker, date)
pairs" fails. -/
theorem C3_duplicate_pair_counterexample :
    (prepare (masterTable [[dupRow1, dupRow2]])).map (fun c => (c.ticker, c.date)) =
      [(some "A", some ((1 : Int), (1 : Int))), (some "A", some ((1 : Int), (1 : Int)))] := by
  with_unfolding_all decide

open Preparation in
open Preparation CombineCsvs in
theorem C3_sorted_and_row_unique_witness :
    (masterTable [[dupRow1, dupRow2]]).Nodup ∧
    dateOLe dupClean0.date dupClean1.date = true :=
  ⟨(C3_sorted_and_row_unique [[dupRow1, dupRow2]]).1,
    (C3_sorted_and_row_unique [[dupRow1, dupRow2]]).2 0 1 dupClean0 dupClean1
      (by decide) (by with_unfolding_all decide) (by with_unfolding_all decide) (by decide)⟩

open Preparation in
theorem strLe_total (a b : String) : strLe a b || strLe b a := by
  simp only [strLe, Bool.or_eq_true, decide_eq_true_eq]
  exact le_total a b

open Preparation in
theorem strLe_trans (a b c : String) :
    strLe a b = true → strLe b c = true → strLe a c = true := by
  simp only [strLe, decide_eq_true_eq]
  exact le_trans

open Preparation in
/-- **C10.** All three yearly-return computations divide by the ticker's
first close with no zero guard: with a nonzero first close the result is
the finite rational `(last-first)/first`; with a zero first close it is a
non-finite float (±inf or NaN), not an error and not a missing marker. -/
theorem C10_yearly_return_zero_divisor (cl : List CRow) (t : String) (f lc : ℚ)
    (hf : firstCloseQ cl t = some f) (hl : lastCloseQ cl t = some lc) :
    ReturnsAnalysis.yearly_return cl t = fdivF (lc - f) f ∧
    MarketSummary.yearly_return cl t = fdivF (lc - f) f ∧
    SectorPerformance.yearly_return cl t = fdivF (lc - f) f ∧
    (f ≠ 0 → ReturnsAnalysis.yearly_return cl t = FVal.fin ((lc - f) / f)) ∧
    (f = 0 → (ReturnsAnalysis.yearly_return cl t).isFinite = false) := by
  have h1 : ReturnsAnalysis.yearly_return cl t = fdivF (lc - f) f := by
    rw [ReturnsAnalysis.yearly_return, hf, hl]
  refine ⟨h1, by rw [MarketSummary.yearly_return, hf, hl],
    by rw [SectorPerformance.yearly_return, hf, hl], ?_, ?_⟩
  · intro hnz
    rw [h1, fdivF, if_neg hnz]
  · intro hz
    subst hz
    rw [h1, fdivF, if_pos rfl]
    rcases lt_trichotomy (0 : ℚ) (lc - 0) with h | h | h
    · rw [if_pos h]; rfl
    · rw [if_neg (by rw [← h]; simp), if_neg (by rw [← h]; simp)]; rfl
    · rw [if_neg (by exact not_lt_of_gt h), if_pos h]; rfl

open Preparation in
open Preparation in
theorem C10_yearly_return_zero_divisor_witness :
    ReturnsAnalysis.yearly_return (prepare zMaster) "Z" = fdivF (5 - 0) 0 ∧
    MarketSummary.yearly_return (prepare zMaster) "Z" = fdivF (5 - 0) 0 ∧
    SectorPerformance.yearly_return (prepare zMaster) "Z" = fdivF (5 - 0) 0 ∧
    ((0 : ℚ) ≠ 0 → ReturnsAnalysis.yearly_return (prepare zMaster) "Z" = FVal.fin ((5 - 0) / 0)) ∧
    ((0 : ℚ) = 0 → (ReturnsAnalysis.yearly_return (prepare zMaster) "Z").isFinite = false) :=
  C10_yearly_return_zero_divisor (prepare zMaster) "Z" 0 5
    (by with_unfolding_all decide) (by with_unfolding_all decide)

open Preparation in
/-- Three boolean predicates with the first two mutually exclusive
partition a count. -/
theorem countP_partition3 {α : Type} (p q : α → Bool)
    (hdisj : ∀ a, p a = true → q a = false) (l : List α) :
    l.countP p + l.countP q + l.countP (fun a => !p a && !q a) = l.length := by
  induction l with
  | nil => rfl
  | cons a l ih =>
      rw [List.countP_cons, List.countP_cons, List.countP_cons, List.length_cons]
      cases hp : p a with
      | true =>
          have hq := hdisj a hp
          simp [hp, hq]
          omega
      | false =>
          cases hq : q a with
          | true =>
              simp [hp, hq]
              omega
          | false =>
              simp [hp, hq]
              omega

open Preparation in
open Preparation in
/-- **C4 (counterexample).** On the spec's scenario the code counts red
stocks with a *strict* `< 0`, so the zero-return ticker C is in neither
bucket: red = 1 (the claim says 2) and green + red = 2 ≠ 3 = number of
tickers. -/
theorem C4_red_count_counterexample :
    MarketSummary.green_count (prepare scnMaster) = 1 ∧
    MarketSummary.red_count (prepare scnMaster) = 1 ∧
    (groupTickers (prepare scnMaster)).length = 3 ∧
    MarketSummary.green_count (prepare scnMaster) +
      MarketSummary.red_count (prepare scnMaster) ≠ 3 := by
  with_unfolding_all decide

open Preparation in
open Preparation in
/-- **C4 (amended).** Green counts the tickers with strictly positive
yearly return and red the tickers with strictly *negative* yearly return;
tickers whose yearly return is zero (or NaN) are counted in neither, so
green + red + (neither) = total.  On the spec's scenario the yearly returns
are `0.21`, `-0.19`, `0`, giving green = 1 and red = 1. -/
theorem C4_green_red_strict :
    (∀ cl : List CRow,
      MarketSummary.green_count cl + MarketSummary.red_count cl +
        ((groupTickers cl).map (MarketSummary.yearly_return cl)).countP
          (fun v => !fposF v && !fnegF v) = (groupTickers cl).length) ∧
    MarketSummary.yearly_return (prepare scnMaster) "A" = FVal.fin (21 / 100) ∧
    MarketSummary.yearly_return (prepare scnMaster) "B" = FVal.fin (-19 / 100) ∧
    MarketSummary.yearly_return (prepare scnMaster) "C" = FVal.fin 0 ∧
    MarketSummary.green_count (prepare scnMaster) = 1 ∧
    MarketSummary.red_count (prepare scnMaster) = 1 := by
  constructor
  · intro cl
    rw [MarketSummary.green_count, MarketSummary.red_count]
    rw [countP_partition3 fposF fnegF ?_ (((groupTickers cl).map
      (MarketSummary.yearly_return cl)))]
    · rw [List.length_map]
    · intro v hv
      cases v with
      | fin q =>
          simp only [fposF, decide_eq_true_eq] at hv
          simp only [fnegF, decide_eq_false_iff_not]
          exact not_lt_of_gt hv
      | inf => rfl
      | ninf => simp [fposF] at hv
      | nan => simp [fposF] at hv
  · refine ⟨?_, ?_, ?_, ?_, ?_⟩ <;> with_unfolding_all decide

open Preparation in
/-- Membership survives `drop_duplicates`. -/
theorem dedupFirstAux_mem {α : Type} [DecidableEq α] :
    ∀ (l seen : List α) (x : α), x ∈ dedupFirstAux seen l ↔ (x ∈ l ∧ x ∉ seen) := by
  intro l
  induction l with
  | nil => intro seen x; simp [dedupFirstAux]
  | cons a l ih =>
      intro seen x
      by_cases h : a ∈ seen
      · rw [dedupFirstAux, if_pos h, ih]
        constructor
        · rintro ⟨hx, hs⟩; exact ⟨List.mem_cons_of_mem a hx, hs⟩
        · rintro ⟨hx, hs⟩
          rcases List.mem_cons.1 hx with h1 | h1
          · exact absurd (h1 ▸ h) hs
          · exact ⟨h1, hs⟩
      · rw [dedupFirstAux, if_neg h]
        rw [List.mem_cons, ih]
        constructor
        · rintro (h1 | ⟨hx, hs⟩)
          · exact ⟨h1 ▸ List.mem_cons_self a l, h1 ▸ h⟩
          · refine ⟨List.mem_cons_of_mem a hx, fun hc => hs (List.mem_cons_of_mem a hc)⟩
        · rintro ⟨hx, hs⟩
          rcases List.mem_cons.1 hx with h1 | h1
          · exact Or.inl h1
          · by_cases hxa : x = a
            · exact Or.inl hxa
            · exact Or.inr ⟨h1, fun hc => (List.mem_cons.1 hc).elim hxa hs⟩

open Preparation in
theorem drop_duplicates_mem {α : Type} [DecidableEq α] (l : List α) (x : α) :
    x ∈ drop_duplicates l ↔ x ∈ l := by
  rw [drop_duplicates, dedupFirstAux_mem]
  simp

open Preparation in
open VolatilityAnalysis in
/-- **C5 (counterexample).** A ticker whose only row has a missing
`daily_return` (every ticker's first row does) is dropped before the
groupby: the volatility output contains *no entry at all* for it, instead
of an entry with a missing value — here the cleaned table has ticker "A"
but the volatility series is empty. -/
theorem C5_omitted_ticker_counterexample :
    groupTickers (Preparation.prepare
      [⟨some "A", some ((1 : Int), (1 : Int)), none, none, none, some 5, none⟩]) = ["A"] ∧
    volatilitySeries (Preparation.prepare
      [⟨some "A", some ((1 : Int), (1 : Int)), none, none, none, some 5, none⟩]) = [] := by
  with_unfolding_all decide

open Preparation in
/-- Sum of a constant list. -/
theorem sum_of_constant (x0 : ℚ) :
    ∀ (xs : List ℚ), (∀ x ∈ xs, x = x0) → xs.sum = (xs.length : ℚ) * x0 := by
  intro xs
  induction xs with
  | nil => intro _; simp
  | cons a l ih =>
      intro h
      rw [List.sum_cons, List.length_cons, h a (List.mem_cons_self a l),
        ih (fun x hx => h x (List.mem_cons_of_mem a hx))]
      push_cast
      ring

open Preparation in
open VolatilityAnalysis in
/-- **C5 (amended).** The volatility series has an entry exactly for the
tickers with at least one non-missing daily return (tickers with none are
omitted entirely); an entry is missing (NaN) iff its ticker has fewer than
2 valid returns — never defaulted to 0 — and for ≥ 2 valid returns it is
the sample variance (squared sample standard deviation), which is 0 for a
constant return series (e.g. a constant-price ticker). -/
theorem C5_volatility_undefined_vs_omitted :
    (∀ (cl : List CRow) (t : String),
      ((t, sampleVar (validReturns cl t)) ∈ volatilitySeries cl ↔ validReturns cl t ≠ [])) ∧
    (∀ (cl : List CRow) (t : String),
      (sampleVar (validReturns cl t) = none ↔ (validReturns cl t).length < 2)) ∧
    (∀ (cl : List CRow) (t : String) (x0 : ℚ),
      2 ≤ (validReturns cl t).length → (∀ x ∈ validReturns cl t, x = x0) →
      sampleVar (validReturns cl t) = some 0) := by
  refine ⟨?_, ?_, ?_⟩
  · intro cl t
    rw [volatilitySeries]
    constructor
    · intro hmem
      obtain ⟨t2, ht2, heq⟩ := List.mem_map.1 hmem
      have htt : t2 = t := congrArg Prod.fst heq
      subst htt
      have hkey : t2 ∈ (dfv cl).filterMap (fun r => r.ticker) := by
        have := (sortS_perm strLe _).mem_iff.1 ht2
        exact (drop_duplicates_mem _ _).1 this
      obtain ⟨r, hr, hrt⟩ := List.mem_filterMap.1 hkey
      intro hcon
      have hrm : r ∈ (dfv cl).filter (fun r => decide (r.ticker = some t2)) :=
        List.mem_filter.2 ⟨hr, by simp [hrt]⟩
      have hr2 : r ∈ cl.filter (fun r => r.daily_return.isSome) := hr
      have hds : r.daily_return.isSome := (List.mem_filter.1 hr2).2
      obtain ⟨q, hq⟩ := Option.isSome_iff_exists.1 hds
      have : q ∈ validReturns cl t2 := by
        rw [validReturns]
        exact List.mem_filterMap.2 ⟨r, hrm, hq⟩
      rw [hcon] at this
      exact absurd this (List.not_mem_nil q)
    · intro hne
      refine List.mem_map.2 ⟨t, ?_, rfl⟩
      obtain ⟨q, hq⟩ := List.exists_mem_of_ne_nil _ hne
      rw [validReturns] at hq
      obtain ⟨r, hr, hrq⟩ := List.mem_filterMap.1 hq
      have hrt : r.ticker = some t := of_decide_eq_true (List.mem_filter.1 hr).2
      have hrd : r ∈ dfv cl := (List.mem_filter.1 hr).1
      rw [volKeys]
      refine (sortS_perm strLe _).mem_iff.2 ?_
      refine (drop_duplicates_mem _ _).2 ?_
      exact List.mem_filterMap.2 ⟨r, hrd, hrt⟩
  · intro cl t
    rw [sampleVar]
    by_cases h : (validReturns cl t).length < 2
    · rw [if_pos h]; simp [h]
    · rw [if_neg h]; simp [h]
  · intro cl t x0 hlen hconst
    have hn : ¬ (validReturns cl t).length < 2 := not_lt_of_ge hlen
    rw [sampleVar, if_neg hn]
    have hlen0 : ((validReturns cl t).length : ℚ) ≠ 0 := by
      have hpos : 0 < (validReturns cl t).length := lt_of_lt_of_le (by norm_num) hlen
      exact Nat.cast_ne_zero.2 (Nat.pos_iff_ne_zero.1 hpos)
    have hmean : meanQ (validReturns cl t) = x0 := by
      rw [meanQ, sum_of_constant x0 _ hconst, mul_comm, mul_div_assoc,
        div_self hlen0, mul_one]
    have hz : ((validReturns cl t).map (fun x => (x - meanQ (validReturns cl t)) ^ 2)).sum
        = 0 := by
      apply List.sum_eq_zero
      intro y hy
      obtain ⟨x, hx, hxy⟩ := List.mem_map.1 hy
      rw [← hxy, hmean, hconst x hx]
      ring
    rw [hz, zero_div]

open Preparation in
open VolatilityAnalysis Preparation in
theorem C5_volatility_undefined_vs_omitted_witness :
    (("C", sampleVar (validReturns (prepare scnMaster) "C")) ∈
        volatilitySeries (prepare scnMaster) ↔
      validReturns (prepare scnMaster) "C" ≠ []) ∧
    (sampleVar (validReturns (prepare scnMaster) "C") = none ↔
      (validReturns (prepare scnMaster) "C").length < 2) ∧
    sampleVar (validReturns (prepare scnMaster) "C") = some 0 :=
  ⟨C5_volatility_undefined_vs_omitted.1 (prepare scnMaster) "C",
   C5_volatility_undefined_vs_omitted.2.1 (prepare scnMaster) "C",
   C5_volatility_undefined_vs_omitted.2.2 (prepare scnMaster) "C" 0
     (by with_unfolding_all decide) (by with_unfolding_all decide)⟩

namespace CorrelationAnalysis

theorem aligned_swap (cl : List CRow) (t1 t2 : String) :
    aligned cl t2 t1 = (aligned cl t1 t2).map (fun p => (p.2, p.1)) := by
  rw [aligned, aligned, List.map_filterMap]
  apply List.filterMap_congr
  intro d _
  cases h1 : pivotVal cl t1 d <;> cases h2 : pivotVal cl t2 d <;> rfl

theorem pearsonRep_swap (xy : List (ℚ × ℚ)) :
    pearsonRep (xy.map (fun p => (p.2, p.1))) =
      ⟨(pearsonRep xy).n, (pearsonRep xy).cov, (pearsonRep xy).vary, (pearsonRep xy).varx⟩ := by
  rw [pearsonRep, pearsonRep]
  have hfst : (xy.map (fun p => ((p.2 : ℚ), (p.1 : ℚ)))).map Prod.fst = xy.map Prod.snd := by
    rw [List.map_map]; rfl
  have hsnd : (xy.map (fun p => ((p.2 : ℚ), (p.1 : ℚ)))).map Prod.snd = xy.map Prod.fst := by
    rw [List.map_map]; rfl
  have hlen : (xy.map (fun p => ((p.2 : ℚ), (p.1 : ℚ)))).length = xy.length :=
    List.length_map _ _
  rw [hfst, hsnd, hlen, List.map_map]
  have hcov : (xy.map ((fun p => (p.1 - meanQ (xy.map Prod.snd)) *
        (p.2 - meanQ (xy.map Prod.fst))) ∘ (fun p => ((p.2 : ℚ), (p.1 : ℚ))))).sum =
      (xy.map (fun p => (p.1 - meanQ (xy.map Prod.fst)) *
        (p.2 - meanQ (xy.map Prod.snd)))).sum := by
    apply congrArg
    apply List.map_congr_left
    intro p _
    show (p.2 - meanQ (xy.map Prod.snd)) * (p.1 - meanQ (xy.map Prod.fst)) = _
    ring
  rw [hcov]

theorem aligned_diag_eq (cl : List CRow) (t : String) :
    ∀ p ∈ aligned cl t t, p.2 = p.1 := by
  intro p hp
  rw [aligned] at hp
  obtain ⟨d, _, hd⟩ := List.mem_filterMap.1 hp
  cases h1 : pivotVal cl t d with
  | none => rw [h1] at hd; exact absurd hd (by simp)
  | some x =>
      rw [h1] at hd
      simp only [Option.some.injEq] at hd
      rw [← hd]

end CorrelationAnalysis

open Preparation in
open CorrelationAnalysis Preparation in
/-- **C6 (counterexample).** Ticker C of the spec's scenario has constant
price, hence 2 valid return observations that are both 0: the variance of
its return column is 0, so the diagonal entry corr(C,C) = 0/√0 is NaN, not
1.0 — the claimed unit diagonal fails for a zero-variance ticker with ≥ 2
observations. -/
theorem C6_diag_nan_counterexample :
    (corrEntry (prepare scnMaster) "C" "C").n = 2 ∧
    (corrEntry (prepare scnMaster) "C" "C").isNaN = true := by
  with_unfolding_all decide

open Preparation in
open CorrelationAnalysis in
/-- **C6 (amended).** The correlation matrix is keyed by `corrTickers` on
both axes; it is symmetric — the `(t2, t1)` entry has the same `cov` and
swapped variances, hence denotes the same float as the `(t1, t2)` entry —
and each diagonal entry has `cov = varx = vary`, so whenever it is not NaN
(i.e. the ticker's return variance is nonzero) it denotes
`varx / sqrt(varx²) = 1`; zero-variance tickers (and tickers with < 2
common observations) get a NaN diagonal instead. -/
theorem C6_corr_symmetric_unit_diag :
    (∀ (cl : List CRow) (t1 t2 : String),
      (corrEntry cl t2 t1).n = (corrEntry cl t1 t2).n ∧
      (corrEntry cl t2 t1).cov = (corrEntry cl t1 t2).cov ∧
      (corrEntry cl t2 t1).varx = (corrEntry cl t1 t2).vary ∧
      (corrEntry cl t2 t1).vary = (corrEntry cl t1 t2).varx) ∧
    (∀ (cl : List CRow) (t : String),
      (corrEntry cl t t).cov = (corrEntry cl t t).varx ∧
      (corrEntry cl t t).vary = (corrEntry cl t t).varx ∧
      ((corrEntry cl t t).isNaN = false →
        0 < (corrEntry cl t t).cov ∧
        (corrEntry cl t t).cov ^ 2 = (corrEntry cl t t).varx * (corrEntry cl t t).vary)) := by
  constructor
  · intro cl t1 t2
    rw [corrEntry, corrEntry, aligned_swap cl t1 t2, pearsonRep_swap]
    exact ⟨rfl, rfl, rfl, rfl⟩
  · intro cl t
    have hdiag := aligned_diag_eq cl t
    have hys : (aligned cl t t).map Prod.snd = (aligned cl t t).map Prod.fst :=
      List.map_congr_left hdiag
    have hcov : (corrEntry cl t t).cov = (corrEntry cl t t).varx := by
      rw [corrEntry, pearsonRep]
      show (List.map _ (aligned cl t t)).sum = (List.map _ ((aligned cl t t).map Prod.fst)).sum
      rw [List.map_map]
      apply congrArg
      apply List.map_congr_left
      intro p hp
      show (p.1 - meanQ ((aligned cl t t).map Prod.fst)) *
          (p.2 - meanQ ((aligned cl t t).map Prod.snd)) = _
      rw [hys, hdiag p hp]
      simp only [Function.comp_apply]
      ring
    have hvary : (corrEntry cl t t).vary = (corrEntry cl t t).varx := by
      rw [corrEntry, pearsonRep]
      show (List.map _ ((aligned cl t t).map Prod.snd)).sum =
        (List.map _ ((aligned cl t t).map Prod.fst)).sum
      rw [hys]
    refine ⟨hcov, hvary, ?_⟩
    intro hnan
    rw [PearsonRep.isNaN] at hnan
    have hne : (corrEntry cl t t).varx * (corrEntry cl t t).vary ≠ 0 := by
      intro hc
      rw [hc] at hnan
      simp at hnan
    have hnn : 0 ≤ (corrEntry cl t t).varx := by
      rw [corrEntry, pearsonRep]
      show 0 ≤ (List.map _ ((aligned cl t t).map Prod.fst)).sum
      apply List.sum_nonneg
      intro y hy
      obtain ⟨x, _, hxy⟩ := List.mem_map.1 hy
      rw [← hxy]
      exact sq_nonneg _
    have hvne : (corrEntry cl t t).varx ≠ 0 := by
      intro hc
      exact hne (by rw [hc, zero_mul])
    have hpos : 0 < (corrEntry cl t t).varx := lt_of_le_of_ne hnn (Ne.symm hvne)
    refine ⟨hcov ▸ hpos, ?_⟩
    rw [hcov, hvary]
    ring

open Preparation in
open CorrelationAnalysis Preparation in
theorem C6_corr_symmetric_unit_diag_witness :
    ((corrEntry (prepare scnMaster) "B" "A").n = (corrEntry (prepare scnMaster) "A" "B").n ∧
     (corrEntry (prepare scnMaster) "B" "A").cov = (corrEntry (prepare scnMaster) "A" "B").cov ∧
     (corrEntry (prepare scnMaster) "B" "A").varx = (corrEntry (prepare scnMaster) "A" "B").vary ∧
     (corrEntry (prepare scnMaster) "B" "A").vary =
       (corrEntry (prepare scnMaster) "A" "B").varx) ∧
    (0 < (corrEntry (prepare vcMaster) "V" "V").cov ∧
     (corrEntry (prepare vcMaster) "V" "V").cov ^ 2 =
       (corrEntry (prepare vcMaster) "V" "V").varx *
         (corrEntry (prepare vcMaster) "V" "V").vary) :=
  ⟨C6_corr_symmetric_unit_diag.1 (prepare scnMaster) "A" "B",
   (C6_corr_symmetric_unit_diag.2 (prepare vcMaster) "V").2.2 (by with_unfolding_all decide)⟩

namespace CumulativeReturnAnalysis

theorem cumGo_filter (t : Option String) :
    ∀ (l : List CRow) (st : List (Option String × ℚ)),
      ((keyedGo cumCell cumState (fun r => r.ticker) st l).filter
        (fun c => decide (c.ticker = t))).map (fun c => c.cumulative_return)
      = cumScanGo ((lookA st t).getD 1)
          ((l.filter (fun r => decide (r.ticker = t))).map
            (fun r => r.daily_return.getD 0)) := by
  intro l
  induction l with
  | nil => intro st; rfl
  | cons r l ih =>
      intro st
      have hck : (cumCell (lookA st r.ticker) r).ticker = r.ticker := rfl
      by_cases ht : r.ticker = t
      · subst ht
        rw [keyedGo, List.filter_cons, List.filter_cons]
        have h1 : decide ((cumCell (lookA st r.ticker) r).ticker = r.ticker) = true := by
          simp [hck]
        have h2 : decide (r.ticker = r.ticker) = true := by simp
        rw [if_pos h1, if_pos h2]
        rw [List.map_cons, List.map_cons, cumScanGo]
        refine congrArg₂ _ rfl ?_
        rw [ih, lookA_updA, if_pos rfl]
        rfl
      · rw [keyedGo, List.filter_cons, List.filter_cons]
        have h1 : ¬ decide ((cumCell (lookA st r.ticker) r).ticker = t) = true := by
          simp [hck, ht]
        have h2 : ¬ decide (r.ticker = t) = true := by simp [ht]
        rw [if_neg h1, if_neg h2]
        rw [ih, lookA_updA, if_neg ht]

end CumulativeReturnAnalysis

open Preparation in
open CumulativeReturnAnalysis Preparation in
/-- **C7 (counterexample).** The script drops every row whose
`daily_return` is missing — in particular each ticker's first row — before
computing the running product: on a two-row cleaned table the cumulative
series has only one row, so it is not "one value per row of the ticker's
cleaned series". -/
theorem C7_drops_first_row_counterexample :
    (prepare wMaster).length = 2 ∧
    (cumulative_full (prepare wMaster)).length = 1 := by
  with_unfolding_all decide

open Preparation in
open CumulativeReturnAnalysis in
/-- **C7 (amended).** The cumulative series has one value per row *with a
non-missing daily return* (each ticker's first cleaned row is dropped);
per ticker, in date order, the values satisfy
`cum₀ = r₀` and `cumₖ = (1 + cumₖ₋₁)(1 + rₖ) - 1`. -/
theorem C7_cumulative_recurrence :
    (∀ cl : List CRow, (cumulative_full cl).length
        = (cl.filter (fun r => r.daily_return.isSome)).length) ∧
    (∀ (cl : List CRow) (t : Option String),
      ((cumulative_full cl).filter (fun c => decide (c.ticker = t))).map
          (fun c => c.cumulative_return) =
        cumScan (((dfr cl).filter (fun r => decide (r.ticker = t))).map
          (fun r => r.daily_return.getD 0))) ∧
    (∀ rs : List ℚ, (cumScan rs)[0]? = rs[0]?) ∧
    (∀ (rs : List ℚ) (k : ℕ) (c1 c2 r2 : ℚ),
      (cumScan rs)[k]? = some c1 → (cumScan rs)[k + 1]? = some c2 →
      rs[k + 1]? = some r2 → c2 = (1 + c1) * (1 + r2) - 1) := by
  have hrec : ∀ (rs : List ℚ) (p : ℚ) (k : ℕ) (c1 c2 r2 : ℚ),
      (cumScanGo p rs)[k]? = some c1 → (cumScanGo p rs)[k + 1]? = some c2 →
      rs[k + 1]? = some r2 → c2 = (1 + c1) * (1 + r2) - 1 := by
    intro rs
    induction rs with
    | nil => intro p k c1 c2 r2 h1 _ _; rw [cumScanGo] at h1; simp at h1
    | cons r rs ih =>
        intro p k c1 c2 r2 h1 h2 h3
        cases k with
        | zero =>
            rw [cumScanGo] at h1 h2
            rw [List.getElem?_cons_zero, Option.some.injEq] at h1
            rw [List.getElem?_cons_succ] at h2 h3
            cases rs with
            | nil => rw [cumScanGo] at h2; simp at h2
            | cons rb rbs =>
                rw [cumScanGo] at h2
                rw [List.getElem?_cons_zero, Option.some.injEq] at h2 h3
                rw [← h1, ← h2, ← h3]
                ring
        | succ k =>
            rw [cumScanGo] at h1 h2
            rw [List.getElem?_cons_succ] at h1 h2 h3
            exact ih (p * (1 + r)) k c1 c2 r2 h1 h2 h3
  refine ⟨?_, ?_, ?_, fun rs => hrec rs 1⟩
  · intro cl
    rw [cumulative_full, keyedGo_length, dfr]
    exact (sortS_perm crowLe _).length_eq
  · intro cl t
    rw [cumulative_full, cumGo_filter t (dfr cl) []]
    rfl
  · intro rs
    cases rs with
    | nil => rfl
    | cons r rs =>
        rw [cumScan, cumScanGo, List.getElem?_cons_zero, List.getElem?_cons_zero]
        rw [Option.some.injEq]
        ring

open Preparation in
open CumulativeReturnAnalysis in
theorem C7_cumulative_recurrence_witness :
    (0 : ℚ) = (1 + 1) * (1 + (-1 / 2 : ℚ)) - 1 :=
  C7_cumulative_recurrence.2.2.2 [1, -1 / 2] 0 1 0 (-1 / 2)
    (by with_unfolding_all decide) (by with_unfolding_all decide)
    (by with_unfolding_all decide)

namespace MonthlyPerformance

theorem retGe_total (a b : MonthlyRow) : retGe a b || retGe b a := by
  simp only [retGe, Bool.or_eq_true, decide_eq_true_eq]
  exact (le_total b.monthly_return a.monthly_return)

theorem retGe_trans (a b c : MonthlyRow) :
    retGe a b = true → retGe b c = true → retGe a c = true := by
  simp only [retGe, decide_eq_true_eq]
  exact fun h1 h2 => le_trans h2 h1

theorem retLe_total (a b : MonthlyRow) : retLe a b || retLe b a := by
  simp only [retLe, Bool.or_eq_true, decide_eq_true_eq]
  exact le_total _ _

theorem retLe_trans (a b c : MonthlyRow) :
    retLe a b = true → retLe b c = true → retLe a c = true := by
  simp only [retLe, decide_eq_true_eq]
  exact le_trans

theorem addRanks_length : ∀ (l : List MonthlyRow) (k : ℕ), (addRanks l k).length = l.length := by
  intro l
  induction l with
  | nil => intro k; rfl
  | cons a l ih => intro k; rw [addRanks, List.length_cons, List.length_cons, ih]

theorem addRanks_map_rank :
    ∀ (l : List MonthlyRow) (k : ℕ),
      (addRanks l k).map (fun g => g.rank) = List.range' k l.length := by
  intro l
  induction l with
  | nil => intro k; rfl
  | cons a l ih =>
      intro k
      rw [addRanks, List.map_cons, List.length_cons, List.range'_succ, ih]

theorem addRanks_map_toMonthlyRow :
    ∀ (l : List MonthlyRow) (k : ℕ),
      (addRanks l k).map (fun g => g.toMonthlyRow) = l := by
  intro l
  induction l with
  | nil => intro k; rfl
  | cons a l ih => intro k; rw [addRanks, List.map_cons, ih]

end MonthlyPerformance

open Preparation in
open MonthlyPerformance in
/-- **C8.** Every monthly row's return is `(last_close − first_close) /
first_close` over its `(ticker, month)` bucket; for every month the gainers
(resp. losers) output consists of `min 5 n` rows ranked `1..len` — never
padded — whose underlying rows, together with a rest, permute the month's
buckets, and every selected gainer's return is ≥ (resp. every selected
loser's return is ≤) every unselected bucket's return. -/
theorem C8_monthly_top5 :
    (∀ (cl : List CRow) (mr : MonthlyRow), mr ∈ monthlyTable cl →
      ∃ f lc, firstCloseB (bucketRows cl mr.ticker mr.month) = some f ∧
        lastCloseB (bucketRows cl mr.ticker mr.month) = some lc ∧
        mr.monthly_return = (lc - f) / f) ∧
    (∀ (cl : List CRow) (m : Int),
      (gainers cl m).length = min 5 (monthData cl m).length ∧
      (gainers cl m).map (fun g => g.rank) = List.range' 1 (gainers cl m).length ∧
      (losers cl m).length = min 5 (monthData cl m).length ∧
      (losers cl m).map (fun g => g.rank) = List.range' 1 (losers cl m).length ∧
      (∃ rest, List.Perm (monthData cl m)
          ((gainers cl m).map (fun g => g.toMonthlyRow) ++ rest) ∧
        ∀ g ∈ gainers cl m, ∀ b ∈ rest,
          b.monthly_return ≤ g.toMonthlyRow.monthly_return) ∧
      (∃ rest, List.Perm (monthData cl m)
          ((losers cl m).map (fun g => g.toMonthlyRow) ++ rest) ∧
        ∀ g ∈ losers cl m, ∀ b ∈ rest,
          g.toMonthlyRow.monthly_return ≤ b.monthly_return)) := by
  constructor
  · intro cl mr hmr
    rw [monthlyTable] at hmr
    obtain ⟨k, _, hk⟩ := List.mem_filterMap.1 hmr
    cases hf : firstCloseB (bucketRows cl k.1 k.2) with
    | none => rw [hf] at hk; exact absurd hk (by simp)
    | some f =>
        cases hl : lastCloseB (bucketRows cl k.1 k.2) with
        | none => rw [hf, hl] at hk; exact absurd hk (by simp)
        | some lc =>
            rw [hf, hl, Option.some.injEq] at hk
            refine ⟨f, lc, ?_, ?_, ?_⟩
            · rw [← hk]; exact hf
            · rw [← hk]; exact hl
            · rw [← hk]
  · intro cl m
    have hglen : (gainers cl m).length = min 5 (monthData cl m).length := by
      rw [gainers, addRanks_length, List.length_take,
        (sortS_perm retGe (monthData cl m)).length_eq]
    have hllen : (losers cl m).length = min 5 (monthData cl m).length := by
      rw [losers, addRanks_length, List.length_take,
        (sortS_perm retLe (monthData cl m)).length_eq]
    refine ⟨hglen, ?_, hllen, ?_, ?_, ?_⟩
    · rw [gainers, addRanks_map_rank, addRanks_length]
    · rw [losers, addRanks_map_rank, addRanks_length]
    · refine ⟨(sortS retGe (monthData cl m)).drop 5, ?_, ?_⟩
      · rw [gainers, addRanks_map_toMonthlyRow, List.take_append_drop]
        exact (sortS_perm retGe (monthData cl m)).symm
      · intro g hg b hb
        have hpw := sortS_pairwise retGe retGe_trans retGe_total (monthData cl m)
        rw [← List.take_append_drop 5 (sortS retGe (monthData cl m))] at hpw
        have hcross := (List.pairwise_append.1 hpw).2.2
        have hgm : g.toMonthlyRow ∈ (sortS retGe (monthData cl m)).take 5 := by
          have := List.mem_map_of_mem (fun g => g.toMonthlyRow) hg
          rw [gainers, addRanks_map_toMonthlyRow] at this
          exact this
        have := hcross _ hgm _ hb
        exact of_decide_eq_true this
    · refine ⟨(sortS retLe (monthData cl m)).drop 5, ?_, ?_⟩
      · rw [losers, addRanks_map_toMonthlyRow, List.take_append_drop]
        exact (sortS_perm retLe (monthData cl m)).symm
      · intro g hg b hb
        have hpw := sortS_pairwise retLe retLe_trans retLe_total (monthData cl m)
        rw [← List.take_append_drop 5 (sortS retLe (monthData cl m))] at hpw
        have hcross := (List.pairwise_append.1 hpw).2.2
        have hgm : g.toMonthlyRow ∈ (sortS retLe (monthData cl m)).take 5 := by
          have := List.mem_map_of_mem (fun g => g.toMonthlyRow) hg
          rw [losers, addRanks_map_toMonthlyRow] at this
          exact this
        have := hcross _ hgm _ hb
        exact of_decide_eq_true this

open Preparation in
open MonthlyPerformance Preparation in
theorem C8_monthly_top5_witness :
    (∃ f lc, firstCloseB (bucketRows (prepare scnMaster) "A" 1) = some f ∧
      lastCloseB (bucketRows (prepare scnMaster) "A" 1) = some lc ∧
      (MonthlyRow.mk "A" 1 ((121 - 100) / 100)).monthly_return = (lc - f) / f) ∧
    (gainers (prepare scnMaster) 1).length =
      min 5 (monthData (prepare scnMaster) 1).length :=
  ⟨C8_monthly_top5.1 (prepare scnMaster) ⟨"A", 1, (121 - 100) / 100⟩
     (by with_unfolding_all decide),
   (C8_monthly_top5.2 (prepare scnMaster) 1).1⟩

open Preparation in
mutual

theorem yamlBeq_iff_eq : ∀ (a b : Yaml), yamlBeq a b = true ↔ a = b
  | Yaml.nullV, Yaml.nullV => by simp [yamlBeq]
  | Yaml.boolV a, Yaml.boolV b => by simp [yamlBeq]
  | Yaml.strV a, Yaml.strV b => by simp [yamlBeq]
  | Yaml.numV a, Yaml.numV b => by simp [yamlBeq]
  | Yaml.listV a, Yaml.listV b => by
      rw [yamlBeq, yamlBeqList_iff_eq a b]
      simp
  | Yaml.dictV a, Yaml.dictV b => by
      rw [yamlBeq, yamlBeqDict_iff_eq a b]
      simp
  | Yaml.nullV, Yaml.boolV _ => by simp [yamlBeq]
  | Yaml.nullV, Yaml.strV _ => by simp [yamlBeq]
  | Yaml.nullV, Yaml.numV _ => by simp [yamlBeq]
  | Yaml.nullV, Yaml.listV _ => by simp [yamlBeq]
  | Yaml.nullV, Yaml.dictV _ => by simp [yamlBeq]
  | Yaml.boolV _, Yaml.nullV => by simp [yamlBeq]
  | Yaml.boolV _, Yaml.strV _ => by simp [yamlBeq]
  | Yaml.boolV _, Yaml.numV _ => by simp [yamlBeq]
  | Yaml.boolV _, Yaml.listV _ => by simp [yamlBeq]
  | Yaml.boolV _, Yaml.dictV _ => by simp [yamlBeq]
  | Yaml.strV _, Yaml.nullV => by simp [yamlBeq]
  | Yaml.strV _, Yaml.boolV _ => by simp [yamlBeq]
  | Yaml.strV _, Yaml.numV _ => by simp [yamlBeq]
  | Yaml.strV _, Yaml.listV _ => by simp [yamlBeq]
  | Yaml.strV _, Yaml.dictV _ => by simp [yamlBeq]
  | Yaml.numV _, Yaml.nullV => by simp [yamlBeq]
  | Yaml.numV _, Yaml.boolV _ => by simp [yamlBeq]
  | Yaml.numV _, Yaml.strV _ => by simp [yamlBeq]
  | Yaml.numV _, Yaml.listV _ => by simp [yamlBeq]
  | Yaml.numV _, Yaml.dictV _ => by simp [yamlBeq]
  | Yaml.listV _, Yaml.nullV => by simp [yamlBeq]
  | Yaml.listV _, Yaml.boolV _ => by simp [yamlBeq]
  | Yaml.listV _, Yaml.strV _ => by simp [yamlBeq]
  | Yaml.listV _, Yaml.numV _ => by simp [yamlBeq]
  | Yaml.listV _, Yaml.dictV _ => by simp [yamlBeq]
  | Yaml.dictV _, Yaml.nullV => by simp [yamlBeq]
  | Yaml.dictV _, Yaml.boolV _ => by simp [yamlBeq]
  | Yaml.dictV _, Yaml.strV _ => by simp [yamlBeq]
  | Yaml.dictV _, Yaml.numV _ => by simp [yamlBeq]
  | Yaml.dictV _, Yaml.listV _ => by simp [yamlBeq]

theorem yamlBeqList_iff_eq : ∀ (xs ys : List Yaml), yamlBeqList xs ys = true ↔ xs = ys
  | [], [] => by simp [yamlBeqList]
  | x :: xs, y :: ys => by
      rw [yamlBeqList, Bool.and_eq_true, yamlBeq_iff_eq x y, yamlBeqList_iff_eq xs ys]
      simp
  | [], _ :: _ => by simp [yamlBeqList]
  | _ :: _, [] => by simp [yamlBeqList]

theorem yamlBeqDict_iff_eq :
    ∀ (xs ys : List (String × Yaml)), yamlBeqDict xs ys = true ↔ xs = ys
  | [], [] => by simp [yamlBeqDict]
  | (k1, v1) :: xs, (k2, v2) :: ys => by
      rw [yamlBeqDict, Bool.and_eq_true, Bool.and_eq_true, yamlBeq_iff_eq v1 v2,
        yamlBeqDict_iff_eq xs ys]
      simp [Prod.ext_iff]
  | [], _ :: _ => by simp [yamlBeqDict]
  | _ :: _, [] => by simp [yamlBeqDict]

end

namespace YamlToCsv

theorem lookY_addRowY (k : Yaml) (row : OutRow) (t : Yaml) :
    ∀ (sd : List (Yaml × List OutRow)),
      lookY (addRowY sd k row) t =
        if yamlBeq k t then some ((lookY sd t).getD [] ++ [row]) else lookY sd t := by
  intro sd
  induction sd with
  | nil =>
      simp only [addRowY, lookY]
      by_cases h : yamlBeq k t = true
      · rw [if_pos h, if_pos h]
        rfl
      · rw [if_neg h, if_neg h]
  | cons p sd ih =>
      obtain ⟨k2, rs⟩ := p
      rw [addRowY]
      by_cases h2 : yamlBeq k2 k = true
      · have hk2 : k2 = k := (yamlBeq_iff_eq k2 k).1 h2
        subst hk2
        rw [if_pos h2]
        simp only [lookY]
        by_cases h3 : yamlBeq k2 t = true
        · rw [if_pos h3, if_pos h3, if_pos h3]
          rfl
        · rw [if_neg h3, if_neg h3, if_neg h3]
      · rw [if_neg h2]
        simp only [lookY]
        by_cases h3 : yamlBeq k2 t = true
        · have hk2 : k2 = t := (yamlBeq_iff_eq k2 t).1 h3
          subst hk2
          have hkt : ¬ yamlBeq k k2 = true := by
            intro hc
            rw [(yamlBeq_iff_eq k k2).1 hc] at h2
            exact h2 ((yamlBeq_iff_eq k2 k2).2 rfl)
          rw [if_pos h3, if_neg hkt, if_pos h3]
        · rw [if_neg h3, if_neg h3, ih]

theorem foldl_addRowY_spec (t : Yaml) :
    ∀ (prs : List (Yaml × OutRow)) (sd : List (Yaml × List OutRow)),
      lookY (prs.foldl (fun sd pr => addRowY sd pr.1 pr.2) sd) t =
        match lookY sd t,
          prs.filterMap (fun pr => if yamlBeq pr.1 t then some pr.2 else none) with
        | none, [] => none
        | none, rows => some rows
        | some rs, rows => some (rs ++ rows) := by
  intro prs
  induction prs with
  | nil =>
      intro sd
      rw [List.foldl_nil, List.filterMap_nil]
      cases lookY sd t with
      | none => rfl
      | some rs => simp
  | cons pr prs ih =>
      intro sd
      rw [List.foldl_cons, ih (addRowY sd pr.1 pr.2), lookY_addRowY pr.1 pr.2 t sd]
      by_cases h : yamlBeq pr.1 t = true
      · rw [if_pos h]
        have hfm : (pr :: prs).filterMap
              (fun pr => if yamlBeq pr.1 t then some pr.2 else none)
            = pr.2 :: prs.filterMap (fun pr => if yamlBeq pr.1 t then some pr.2 else none) := by
          simp [List.filterMap_cons, h]
        rw [hfm]
        cases hsd : lookY sd t with
        | none => simp
        | some rs => simp
      · rw [if_neg h]
        have hfm : (pr :: prs).filterMap
              (fun pr => if yamlBeq pr.1 t then some pr.2 else none)
            = prs.filterMap (fun pr => if yamlBeq pr.1 t then some pr.2 else none) := by
          simp [List.filterMap_cons, h]
        rw [hfm]

theorem processRecord_eq (sd : List (Yaml × List OutRow)) (r : List (String × Yaml)) :
    processRecord sd r =
      if truthy (tickerVal r) && !(allPricesNull (ensure_row r)) then
        addRowY sd (tickerVal r) (ensure_row r)
      else sd := by
  rw [processRecord]
  cases ht : truthy (tickerVal r) with
  | false => simp
  | true =>
      cases hn : allPricesNull (ensure_row r) with
      | false => simp
      | true => simp

theorem foldl_funext {α γ : Type} (F G : γ → α → γ) (h : ∀ s a, F s a = G s a) :
    ∀ (l : List α) (s : γ), l.foldl F s = l.foldl G s := by
  intro l
  induction l with
  | nil => intro s; rfl
  | cons a l ih => intro s; rw [List.foldl_cons, List.foldl_cons, h, ih]

theorem foldl_if_filterMap {α β γ : Type} (cond : α → Bool) (g : α → β)
    (step : γ → β → γ) :
    ∀ (l : List α) (s : γ),
      l.foldl (fun s a => if cond a then step s (g a) else s) s
        = (l.filterMap (fun a => if cond a then some (g a) else none)).foldl step s := by
  intro l
  induction l with
  | nil => intro s; rfl
  | cons a l ih =>
      intro s
      rw [List.foldl_cons, List.filterMap_cons]
      cases hc : cond a with
      | false =>
          show List.foldl (fun s a => if cond a = true then step s (g a) else s) s l
            = List.foldl step s
              (List.filterMap (fun a => if cond a = true then some (g a) else none) l)
          exact ih s
      | true =>
          show List.foldl (fun s a => if cond a = true then step s (g a) else s)
              (step s (g a)) l =
            List.foldl step s
              (g a :: List.filterMap (fun a => if cond a = true then some (g a) else none) l)
          rw [List.foldl_cons]
          exact ih (step s (g a))

theorem foldl_flatMap {α β γ : Type} (g : α → List β) (step : γ → β → γ) :
    ∀ (l : List α) (s : γ),
      (l.flatMap g).foldl step s = l.foldl (fun s a => (g a).foldl step s) s := by
  intro l
  induction l with
  | nil => intro s; rfl
  | cons a l ih =>
      intro s
      rw [List.flatMap_cons, List.foldl_append, List.foldl_cons, ih]

theorem filterMap_flatMap {α β γ : Type} (g : α → List β) (f : β → Option γ) :
    ∀ (l : List α), (l.flatMap g).filterMap f = l.flatMap (fun a => (g a).filterMap f) := by
  intro l
  induction l with
  | nil => rfl
  | cons a l ih => rw [List.flatMap_cons, List.flatMap_cons, List.filterMap_append, ih]

theorem stocks_data_eq (files : List Yaml) :
    stocks_data files =
      (acceptedPairs files).foldl (fun sd pr => addRowY sd pr.1 pr.2) [] := by
  rw [stocks_data, acceptedPairs, foldl_flatMap]
  apply foldl_funext
  intro sd p
  have h1 : (iter_records p).foldl processRecord sd
      = (iter_records p).foldl (fun sd r =>
          if truthy (tickerVal r) && !(allPricesNull (ensure_row r)) then
            addRowY sd (tickerVal r) (ensure_row r)
          else sd) sd :=
    foldl_funext _ _ processRecord_eq (iter_records p) sd
  rw [h1]
  exact foldl_if_filterMap
    (fun r => truthy (tickerVal r) && !(allPricesNull (ensure_row r)))
    (fun r => (tickerVal r, ensure_row r))
    (fun sd pr => addRowY sd pr.1 pr.2) (iter_records p) sd

theorem acceptedRows_eq (files : List Yaml) (t : Yaml) :
    acceptedRows files t = (acceptedPairs files).filterMap
      (fun pr => if yamlBeq pr.1 t then some pr.2 else none) := by
  rw [acceptedRows, acceptedPairs, filterMap_flatMap]
  refine congrArg files.flatMap (funext fun p => ?_)
  rw [List.filterMap_filterMap]
  refine congrArg (fun f => List.filterMap f (iter_records p)) (funext fun r => ?_)
  cases hc : truthy (tickerVal r) && !(allPricesNull (ensure_row r)) with
  | false => rfl
  | true =>
      cases hb : yamlBeq (tickerVal r) t with
      | false =>
          show (none : Option OutRow)
            = if yamlBeq (tickerVal r) t = true then some (ensure_row r) else none
          rw [if_neg (by simp [hb])]
      | true =>
          show some (ensure_row r)
            = if yamlBeq (tickerVal r) t = true then some (ensure_row r) else none
          rw [if_pos hb]

end YamlToCsv

open Preparation in
open YamlToCsv in
/-- **C9.** The Schema Normalizer's per-ticker accumulation: for every
ticker value `t`, the accumulated dict maps `t` to exactly the records —
across *all* source files, in order — that were yielded by the shape
matcher, have a truthy ticker equal to `t`, and have at least one of the
four price fields non-missing; records with a falsy/absent ticker or with
all four prices missing never enter any series, and a ticker with no
accepted records has no entry. -/
theorem C9_normalizer_accumulation (files : List Yaml) (t : Yaml) :
    lookY (stocks_data files) t =
      match acceptedRows files t with
      | [] => none
      | rows => some rows := by
  rw [stocks_data_eq, foldl_addRowY_spec t (acceptedPairs files) [], acceptedRows_eq]
  cases (acceptedPairs files).filterMap
      (fun pr => if yamlBeq pr.1 t then some pr.2 else none) with
  | nil => rfl
  | cons a l => rfl

end StockAnalysis
